import Mathlib

/-!
Shallow embedding of the CHP stabilizer simulator
(`chp_sim/chp_simulator.py`): a `(2n+1) × (2n+1)` bit tableau with X-block
columns `[0, n)`, Z-block columns `[n, 2n)` and a sign column, mutated by
`cnot`, `hadamard`, `phase` and `measure`.  Rows are modelled as functions
`Nat → Bool`; machine behaviour that can raise (the commutation assertion
in `_row_product_sign`, numpy index errors at the public boundary) is
modelled with `Option`.
-/

namespace Chp

/-- `int(b)` for a Python bool used in arithmetic. -/
def b2i (b : Bool) : Int := if b then 1 else 0

/-- Embedding of `pauli_product_phase(x1, z1, x2, z2)`: the power of `i` in
the product of the two encoded Paulis, by case over the first operand
exactly as in the source. -/
def pauliProductPhase (x1 z1 x2 z2 : Bool) : Int :=
  if x1 && z1 then
    b2i z2 - b2i x2
  else if x1 then
    (if z2 then 2 * b2i x2 - 1 else 0)
  else if z1 then
    (if x2 then 1 - 2 * b2i z2 else 0)
  else 0

/-- Embedding of `MeasureResult`: outcome value plus determinacy flag. -/
structure MeasureResult where
  value : Bool
  determined : Bool
deriving DecidableEq, Repr

/-- The simulator state: qubit count `n` and the bit-matrix split into the
views `_x` (columns `[0, n)`), `_z` (columns `[n, 2n)`) and `_r` (sign
column), exactly as `ChpSimulator.__init__` sets them up.  `x i j`, `z i j`
are meaningful for `j < n` and rows `i ≤ 2n`; `r i` for `i ≤ 2n`. -/
structure ChpState where
  n : Nat
  x : Nat → Nat → Bool
  z : Nat → Nat → Bool
  r : Nat → Bool

/-- `ChpSimulator(num_qubits)`: `np.eye(2 * num_qubits + 1)`, so every
diagonal entry of the full `(2n+1) × (2n+1)` table is 1: `x i i` for
`i < n`, `z (n+j) j` for `j < n`, and the scratch sign bit `r (2n)`. -/
def new (nq : Nat) : ChpState where
  n := nq
  x := fun i j => decide (i = j)
  z := fun i j => decide (i = j + nq)
  r := fun i => decide (i = 2 * nq)

/-- `ChpSimulator.cnot(control, target)`: column updates over all rows.
The sign update reads the pre-update column bits, as the source's first
statement does. -/
def cnot (s : ChpState) (control target : Nat) : ChpState where
  n := s.n
  r := fun i => s.r i ^^ (s.x i control && s.z i target &&
    !(s.x i target ^^ s.z i control))
  x := fun i j => if j = target then s.x i target ^^ s.x i control else s.x i j
  z := fun i j => if j = control then s.z i control ^^ s.z i target else s.z i j

/-- `ChpSimulator.hadamard(qubit)`: sign update then the source's XOR-swap
of the `x` and `z` bits of column `qubit`, written as its three steps. -/
def hadamard (s : ChpState) (qubit : Nat) : ChpState :=
  let r1 : Nat → Bool := fun i => s.r i ^^ (s.x i qubit && s.z i qubit)
  let x1 : Nat → Nat → Bool := fun i j =>
    if j = qubit then s.x i qubit ^^ s.z i qubit else s.x i j
  let z1 : Nat → Nat → Bool := fun i j =>
    if j = qubit then s.z i qubit ^^ x1 i qubit else s.z i j
  let x2 : Nat → Nat → Bool := fun i j =>
    if j = qubit then x1 i qubit ^^ z1 i qubit else x1 i j
  { n := s.n, r := r1, x := x2, z := z1 }

/-- `ChpSimulator.phase(qubit)`: sign update then `z ^= x` on the column. -/
def phase (s : ChpState) (qubit : Nat) : ChpState where
  n := s.n
  r := fun i => s.r i ^^ (s.x i qubit && s.z i qubit)
  x := s.x
  z := fun i j => if j = qubit then s.z i qubit ^^ s.x i qubit else s.z i j

/-- The integer `pauli_phases` summed in `_row_product_sign(i, k)`. -/
def rowTotal (s : ChpState) (i k : Nat) : Int :=
  ∑ j in Finset.range s.n,
    pauliProductPhase (s.x i j) (s.z i j) (s.x k j) (s.z k j)

/-- The boolean returned by `_row_product_sign(i, k)` once the assertion
has passed: `r[i] ^ r[k] ^ ((pauli_phases >> 1) & 1)` with Python's
floor-shift and nonnegative `& 1`. -/
def rpsVal (s : ChpState) (i k : Nat) : Bool :=
  (s.r i ^^ s.r k) ^^ decide ((Int.fdiv (rowTotal s i k) 2) % 2 = 1)

/-- `_row_product_sign(i, k)` with `assert not pauli_phases & 1` modelled
as `none` on an odd total. -/
def rowProductSign (s : ChpState) (i k : Nat) : Option Bool :=
  if rowTotal s i k % 2 = 0 then some (rpsVal s i k) else none

/-- `_row_mult(i, k)`: set `r[i]` to the product sign, then XOR row `k`'s
Pauli bits into row `i` over columns `[0, n)`. -/
def rowMult (s : ChpState) (i k : Nat) : Option ChpState :=
  (rowProductSign s i k).map fun sgn =>
    { n := s.n
      r := fun i' => if i' = i then sgn else s.r i'
      x := fun i' j =>
        if i' = i then (if j < s.n then s.x i j ^^ s.x k j else s.x i' j)
        else s.x i' j
      z := fun i' j =>
        if i' = i then (if j < s.n then s.z i j ^^ s.z k j else s.z i' j)
        else s.z i' j }

/-- Steps 1–4 of `_measure_random(a, p, bias)`: copy row `p+n` over row
`p`, zero row `p+n`, set `z[p+n, a] = 1`, store the drawn sign bit `b` in
`r[p+n]`, written as the source's four sequential statements. -/
def randCollapse (s : ChpState) (a p : Nat) (b : Bool) : ChpState :=
  let s1 : ChpState :=
    { s with
      x := fun i j => if i = p then s.x (p + s.n) j else s.x i j
      z := fun i j => if i = p then s.z (p + s.n) j else s.z i j
      r := fun i => if i = p then s.r (p + s.n) else s.r i }
  let s2 : ChpState :=
    { s1 with
      x := fun i j => if i = p + s1.n then false else s1.x i j
      z := fun i j => if i = p + s1.n then false else s1.z i j
      r := fun i => if i = p + s1.n then false else s1.r i }
  let s3 : ChpState :=
    { s2 with
      z := fun i j => if i = p + s2.n ∧ j = a then true else s2.z i j }
  { s3 with r := fun i => if i = p + s3.n then b else s3.r i }

/-- One iteration of the row-update loop of `_measure_random`: if
`x[i, a] and i != p and i != p + n`, perform `row_mult(i, p)`.  The second
component is a ghost log of the `row_mult` invocations `(i, k)`. -/
def stepR (a p : Nat) (stl : ChpState × List (Nat × Nat)) (i : Nat) :
    Option (ChpState × List (Nat × Nat)) :=
  if stl.1.x i a && !decide (i = p) && !decide (i = p + stl.1.n) then
    (rowMult stl.1 i p).map fun st => (st, stl.2 ++ [(i, p)])
  else some stl

/-- `_measure_random` after its collapse steps: the loop
`for i in range(2*n)`, with the invocation log. -/
def measureRandomAux (s : ChpState) (a p : Nat) (b : Bool) :
    Option (ChpState × List (Nat × Nat)) :=
  (List.range (2 * s.n)).foldlM (stepR a p) (randCollapse s a p b, [])

/-- `_measure_random(a, p, bias)` with the drawn bit `b` supplied: the
entry assertion `assert self._x[p+n, a]`, the collapse, the loop, and the
result `MeasureResult(value=self._r[p+n], determined=False)`. -/
def measureRandom (s : ChpState) (a p : Nat) (b : Bool) :
    Option (ChpState × MeasureResult) :=
  if s.x (p + s.n) a then
    (measureRandomAux s a p b).map fun stl =>
      (stl.1, ⟨stl.1.r (p + stl.1.n), false⟩)
  else none

/-- `self._table[-1, :] = 0`: zero the scratch row `2n` entirely. -/
def zeroScratch (s : ChpState) : ChpState where
  n := s.n
  x := fun i j => if i = 2 * s.n then false else s.x i j
  z := fun i j => if i = 2 * s.n then false else s.z i j
  r := fun i => if i = 2 * s.n then false else s.r i

/-- One iteration of the loop of `_measure_determined`: if `x[i, a]`,
perform `row_mult(-1, i + n)` (row `-1` is the scratch row `2n`). -/
def stepD (a : Nat) (st : ChpState) (i : Nat) : Option ChpState :=
  if st.x i a then rowMult st (2 * st.n) (i + st.n) else some st

/-- `_measure_determined(a)`: zero the scratch row, fold the loop over
`range(n)`, and return `MeasureResult(value=self._r[-1], determined=True)`. -/
def measureDetermined (s : ChpState) (a : Nat) :
    Option (ChpState × MeasureResult) :=
  ((List.range s.n).foldlM (stepD a) (zeroScratch s)).map fun st =>
    (st, ⟨st.r (2 * st.n), true⟩)

/-- `measure(qubit, bias)` with the drawn random bit `b` supplied: scan
`p in range(n)` for the first stabilizer row with `x[p+n, qubit]` set and
dispatch to the random branch with that `p`, else the determined branch. -/
def measure (s : ChpState) (qubit : Nat) (b : Bool) :
    Option (ChpState × MeasureResult) :=
  match (List.range s.n).find? (fun p => s.x (p + s.n) qubit) with
  | some p => measureRandom s qubit p b
  | none => measureDetermined s qubit

/-- `_cell(row, col)` of `__str__`: `['.', 'X', 'Z', 'Y'][x + 2*z]`. -/
def cell (s : ChpState) (row col : Nat) : Char :=
  if s.x row col then (if s.z row col then 'Y' else 'X')
  else (if s.z row col then 'Z' else '.')

/-- `_row(row)` of `__str__`: a sign character followed by the `n` cell
characters, accumulated left to right as the source's loop does. -/
def rowStr (s : ChpState) (row : Nat) : String :=
  (List.range s.n).foldl (fun result col => result ++ (cell s row col).toString)
    (if s.r row then "-" else "+")

/-- `__str__`: the block the source calls `z_obs` (rows `[0, n)`), a
separator of `n+1` dashes, then the block it calls `x_obs`
(rows `[n, 2n)`), joined by newlines. -/
def pyStr (s : ChpState) : String :=
  String.intercalate "\n"
    ((List.range s.n).map (fun row => rowStr s row)
      ++ [String.mk (List.replicate (s.n + 1) '-')]
      ++ (List.range' s.n s.n).map (fun row => rowStr s row))

/-- Public `cnot` behaviour at the array boundary: numpy raises an index
error when a column index is outside `[0, n)`; nothing else is checked. -/
def cnotOp (s : ChpState) (control target : Nat) : Option ChpState :=
  if control < s.n ∧ target < s.n then some (cnot s control target) else none

/-- Public `hadamard` behaviour at the array boundary. -/
def hadamardOp (s : ChpState) (qubit : Nat) : Option ChpState :=
  if qubit < s.n then some (hadamard s qubit) else none

/-- Public `phase` behaviour at the array boundary. -/
def phaseOp (s : ChpState) (qubit : Nat) : Option ChpState :=
  if qubit < s.n then some (phase s qubit) else none

/-- Public `measure` with a rational `bias` and the uniform draw
`u = random.random()`: the drawn bit is `u < bias`; the qubit index is
checked by the array access, the bias is never validated. -/
def measureB (s : ChpState) (qubit : Nat) (bias u : ℚ) :
    Option (ChpState × MeasureResult) :=
  if qubit < s.n then measure s qubit (decide (u < bias)) else none

/-- Coefficient of a bit in the commutation algebra over `ZMod 2`. -/
def bb (b : Bool) : ZMod 2 := if b then 1 else 0

/-- Symplectic pairing of two abstract Pauli rows over the first `nn`
columns: counts the anticommuting columns mod 2. -/
def symp (nn : Nat) (ux uz vx vz : Nat → Bool) : ZMod 2 :=
  ∑ j in Finset.range nn, (bb (ux j) * bb (vz j) + bb (uz j) * bb (vx j))

/-- Symplectic pairing of rows `i` and `k` of a state: `0` iff the two
Pauli rows commute. -/
def sym (s : ChpState) (i k : Nat) : ZMod 2 :=
  symp s.n (s.x i) (s.z i) (s.x k) (s.z k)

/-- The state produced by a successful `_row_mult(i, k)`. -/
def rowMultVal (s : ChpState) (i k : Nat) : ChpState where
  n := s.n
  r := fun i' => if i' = i then rpsVal s i k else s.r i'
  x := fun i' j =>
    if i' = i then (if j < s.n then s.x i j ^^ s.x k j else s.x i' j)
    else s.x i' j
  z := fun i' j =>
    if i' = i then (if j < s.n then s.z i j ^^ s.z k j else s.z i' j)
    else s.z i' j

/-- The symplectic tableau invariant: among the `2n` destabilizer and
stabilizer rows, two rows anticommute exactly when they are a
destabilizer/stabilizer pair `i, i+n`. -/
def Inv (s : ChpState) : Prop :=
  ∀ i k, i < 2 * s.n → k < 2 * s.n →
    sym s i k = if i + s.n = k ∨ k + s.n = i then 1 else 0

/-- The row-update trigger of the `_measure_random` loop, evaluated on the
post-collapse tableau: `x[i, a] and i != p and i != p + n`. -/
def trig (s4 : ChpState) (a p : Nat) (i : Nat) : Bool :=
  s4.x i a && !decide (i = p) && !decide (i = p + s4.n)

/-- The simultaneous effect of the `_measure_random` loop on the rows
listed in `L`, relative to the post-collapse tableau `s4`. -/
def foldOut (s4 : ChpState) (a p : Nat) (st : ChpState) (L : List Nat) :
    ChpState where
  n := st.n
  x := fun i j =>
    if i ∈ L ∧ trig s4 a p i = true ∧ j < s4.n then s4.x i j ^^ s4.x p j
    else st.x i j
  z := fun i j =>
    if i ∈ L ∧ trig s4 a p i = true ∧ j < s4.n then s4.z i j ^^ s4.z p j
    else st.z i j
  r := fun i =>
    if i ∈ L ∧ trig s4 a p i = true then rpsVal s4 i p else st.r i

/-- The `row_mult` invocations the `_measure_random` loop performs for the
rows listed in `L`. -/
def callsOf (s4 : ChpState) (a p : Nat) (L : List Nat) : List (Nat × Nat) :=
  (L.filter (trig s4 a p)).map (fun i => (i, p))

/-- States reachable from `ChpSimulator(n)` (with `n ≥ 1`) by public
operations with in-range arguments. -/
inductive Reachable : ChpState → Prop where
  | init : ∀ nq, 1 ≤ nq → Reachable (new nq)
  | cnotStep : ∀ s c t, Reachable s → c < s.n → t < s.n → c ≠ t →
      Reachable (cnot s c t)
  | hadamardStep : ∀ s q, Reachable s → q < s.n → Reachable (hadamard s q)
  | phaseStep : ∀ s q, Reachable s → q < s.n → Reachable (phase s q)
  | measureStep : ∀ s q b s' r, Reachable s → q < s.n →
      measure s q b = some (s', r) → Reachable s'

/-- The printed 3-qubit state of the source's kickback-vs-stabilizer test,
used as a concrete state whose measurement performs a `row_mult`. -/
def kvsState : ChpState :=
  hadamard (hadamard (hadamard (phase (phase (cnot (cnot
    (hadamard (new 3) 2) 2 0) 2 1) 0) 1) 0) 1) 2

/-- Modelled from the spec: the rendering C8 claims — rows `[n, 2n)`
first, then the dash separator line, then rows `[0, n)`, each row a sign
character followed by the `n` Pauli cell characters, joined by newlines
with no trailing newline. -/
def specRenderC8 (s : ChpState) : String :=
  String.intercalate "\n"
    ((List.range' s.n s.n).map (fun row =>
        String.mk ((if s.r row then '-' else '+') ::
          (List.range s.n).map (fun col =>
            if s.x row col then (if s.z row col then 'Y' else 'X')
            else (if s.z row col then 'Z' else '.'))))
      ++ [String.mk (List.replicate (s.n + 1) '-')]
      ++ (List.range s.n).map (fun row =>
        String.mk ((if s.r row then '-' else '+') ::
          (List.range s.n).map (fun col =>
            if s.x row col then (if s.z row col then 'Y' else 'X')
            else (if s.z row col then 'Z' else '.')))))

/-- Modelled from the spec with the block order corrected to the source:
rows `[0, n)` first, then the separator, then rows `[n, 2n)`. -/
def specRenderC8Fixed (s : ChpState) : String :=
  String.intercalate "\n"
    ((List.range s.n).map (fun row =>
        String.mk ((if s.r row then '-' else '+') ::
          (List.range s.n).map (fun col =>
            if s.x row col then (if s.z row col then 'Y' else 'X')
            else (if s.z row col then 'Z' else '.'))))
      ++ [String.mk (List.replicate (s.n + 1) '-')]
      ++ (List.range' s.n s.n).map (fun row =>
        String.mk ((if s.r row then '-' else '+') ::
          (List.range s.n).map (fun col =>
            if s.x row col then (if s.z row col then 'Y' else 'X')
            else (if s.z row col then 'Z' else '.')))))

theorem stateExt {s t : ChpState} (hn : s.n = t.n)
    (hx : ∀ i j, s.x i j = t.x i j) (hz : ∀ i j, s.z i j = t.z i j)
    (hr : ∀ i, s.r i = t.r i) : s = t := by
  cases s; cases t
  obtain rfl : _ = _ := hn
  congr 1
  · funext i j; exact hx i j
  · funext i j; exact hz i j
  · funext i; exact hr i

theorem hadamard_n (s : ChpState) (q : Nat) : (hadamard s q).n = s.n := rfl

theorem hadamard_x (s : ChpState) (q i j : Nat) :
    (hadamard s q).x i j = if j = q then s.z i q else s.x i j := by
  by_cases h : j = q
  · subst h
    show (if j = j then _ else _) = _
    simp only [if_pos rfl]
    cases s.x i j <;> cases s.z i j <;> rfl
  · show (if j = q then _ else if j = q then _ else _) = _
    simp [h]

theorem hadamard_z (s : ChpState) (q i j : Nat) :
    (hadamard s q).z i j = if j = q then s.x i q else s.z i j := by
  by_cases h : j = q
  · subst h
    show (if j = j then _ else _) = _
    simp only [if_pos rfl]
    cases s.x i j <;> cases s.z i j <;> rfl
  · show (if j = q then _ else _) = _
    simp [h]

theorem hadamard_r (s : ChpState) (q : Nat) (i : Nat) :
    (hadamard s q).r i = (s.r i ^^ (s.x i q && s.z i q)) := rfl

theorem bb_xor (a b : Bool) : bb (a ^^ b) = bb a + bb b := by
  cases a <;> cases b <;> decide

theorem symp_congr {nn : Nat} {ux uz vx vz ux' uz' vx' vz' : Nat → Bool}
    (h1 : ∀ j, j < nn → ux j = ux' j) (h2 : ∀ j, j < nn → uz j = uz' j)
    (h3 : ∀ j, j < nn → vx j = vx' j) (h4 : ∀ j, j < nn → vz j = vz' j) :
    symp nn ux uz vx vz = symp nn ux' uz' vx' vz' :=
  Finset.sum_congr rfl fun j hj => by
    rw [h1 j (Finset.mem_range.1 hj), h2 j (Finset.mem_range.1 hj),
      h3 j (Finset.mem_range.1 hj), h4 j (Finset.mem_range.1 hj)]

theorem symp_comm (nn : Nat) (ux uz vx vz : Nat → Bool) :
    symp nn ux uz vx vz = symp nn vx vz ux uz :=
  Finset.sum_congr rfl fun j _ => by ring

theorem symp_self (nn : Nat) (ux uz : Nat → Bool) :
    symp nn ux uz ux uz = 0 :=
  Finset.sum_eq_zero fun j _ => by
    cases ux j <;> cases uz j <;> decide

theorem symp_add_left (nn : Nat) (ux uz wx wz vx vz : Nat → Bool) :
    symp nn (fun j => ux j ^^ wx j) (fun j => uz j ^^ wz j) vx vz =
      symp nn ux uz vx vz + symp nn wx wz vx vz := by
  unfold symp
  rw [← Finset.sum_add_distrib]
  exact Finset.sum_congr rfl fun j _ => by
    show bb (ux j ^^ wx j) * bb (vz j) + bb (uz j ^^ wz j) * bb (vx j) = _
    cases ux j <;> cases wx j <;> cases uz j <;> cases wz j <;>
      cases vx j <;> cases vz j <;> decide

theorem symp_zero_left (nn : Nat) (vx vz : Nat → Bool) :
    symp nn (fun _ => false) (fun _ => false) vx vz = 0 :=
  Finset.sum_eq_zero fun j _ => by
    show bb false * bb (vz j) + bb false * bb (vx j) = 0
    cases vx j <;> cases vz j <;> decide

theorem symp_Za_right {nn a : Nat} (ha : a < nn) (ux uz : Nat → Bool) :
    symp nn ux uz (fun _ => false) (fun j => decide (j = a)) = bb (ux a) := by
  unfold symp
  have h : ∀ j ∈ Finset.range nn,
      bb (ux j) * bb (decide (j = a)) + bb (uz j) * bb false =
        if j = a then bb (ux a) else 0 := by
    intro j _
    by_cases hj : j = a
    · subst hj; simp [bb]
    · simp [bb, hj]
  rw [Finset.sum_congr rfl h, Finset.sum_ite_eq' (Finset.range nn) a]
  simp [Finset.mem_range.2 ha]

theorem symp_Za_left {nn a : Nat} (ha : a < nn) (vx vz : Nat → Bool) :
    symp nn (fun _ => false) (fun j => decide (j = a)) vx vz = bb (vx a) := by
  rw [symp_comm]
  exact symp_Za_right ha vx vz

theorem symp_pointX_right {nn a : Nat} (ha : a < nn) (ux uz : Nat → Bool) :
    symp nn ux uz (fun j => decide (j = a)) (fun _ => false) = bb (uz a) := by
  unfold symp
  have h : ∀ j ∈ Finset.range nn,
      bb (ux j) * bb false + bb (uz j) * bb (decide (j = a)) =
        if j = a then bb (uz a) else 0 := by
    intro j _
    by_cases hj : j = a
    · subst hj; simp [bb]
    · simp [bb, hj]
  rw [Finset.sum_congr rfl h, Finset.sum_ite_eq' (Finset.range nn) a]
  simp [Finset.mem_range.2 ha]

theorem symp_pointX_left {nn a : Nat} (ha : a < nn) (vx vz : Nat → Bool) :
    symp nn (fun j => decide (j = a)) (fun _ => false) vx vz = bb (vz a) := by
  rw [symp_comm]
  exact symp_pointX_right ha vx vz

theorem ppp_cast (a b c d : Bool) :
    ((pauliProductPhase a b c d : Int) : ZMod 2) = bb a * bb d + bb b * bb c := by
  cases a <;> cases b <;> cases c <;> cases d <;> decide

theorem rowTotal_cast (s : ChpState) (i k : Nat) :
    ((rowTotal s i k : Int) : ZMod 2) = sym s i k := by
  unfold rowTotal sym symp
  push_cast
  exact Finset.sum_congr rfl fun j _ => ppp_cast _ _ _ _

theorem even_iff_sym (s : ChpState) (i k : Nat) :
    rowTotal s i k % 2 = 0 ↔ sym s i k = 0 := by
  rw [← rowTotal_cast, ZMod.intCast_zmod_eq_zero_iff_dvd]
  exact ⟨Int.dvd_of_emod_eq_zero, Int.emod_eq_zero_of_dvd⟩

theorem odd_iff_sym (s : ChpState) (i k : Nat) :
    rowTotal s i k % 2 = 1 ↔ sym s i k = 1 := by
  have he := even_iff_sym s i k
  have h2 : rowTotal s i k % 2 = 0 ∨ rowTotal s i k % 2 = 1 := by omega
  have h01 : sym s i k = 0 ∨ sym s i k = 1 := by
    have hz : ∀ a : ZMod 2, a = 0 ∨ a = 1 := by decide
    exact hz _
  constructor
  · intro h
    rcases h01 with hs | hs
    · exact absurd (he.2 hs) (by omega)
    · exact hs
  · intro h
    rcases h2 with h0 | h0
    · exact absurd (he.1 h0) (by simp [h])
    · exact h0

theorem cnot_n (s : ChpState) (c t : Nat) : (cnot s c t).n = s.n := rfl

theorem cnot_x (s : ChpState) (c t i j : Nat) :
    (cnot s c t).x i j = if j = t then s.x i t ^^ s.x i c else s.x i j := rfl

theorem cnot_z (s : ChpState) (c t i j : Nat) :
    (cnot s c t).z i j = if j = c then s.z i c ^^ s.z i t else s.z i j := rfl

theorem cnot_r (s : ChpState) (c t i : Nat) :
    (cnot s c t).r i =
      (s.r i ^^ (s.x i c && s.z i t && !(s.x i t ^^ s.z i c))) := rfl

theorem phase_n (s : ChpState) (q : Nat) : (phase s q).n = s.n := rfl

theorem phase_x (s : ChpState) (q i j : Nat) : (phase s q).x i j = s.x i j := rfl

theorem phase_z (s : ChpState) (q i j : Nat) :
    (phase s q).z i j = if j = q then s.z i q ^^ s.x i q else s.z i j := rfl

theorem phase_r (s : ChpState) (q i : Nat) :
    (phase s q).r i = (s.r i ^^ (s.x i q && s.z i q)) := rfl

theorem new_n (nq : Nat) : (new nq).n = nq := rfl

theorem new_x (nq i j : Nat) : (new nq).x i j = decide (i = j) := rfl

theorem new_z (nq i j : Nat) : (new nq).z i j = decide (i = j + nq) := rfl

theorem new_r (nq i : Nat) : (new nq).r i = decide (i = 2 * nq) := rfl

theorem rowMult_eq (s : ChpState) (i k : Nat) :
    rowMult s i k =
      if rowTotal s i k % 2 = 0 then some (rowMultVal s i k) else none := by
  unfold rowMult rowProductSign rowMultVal
  split <;> rfl

theorem zeroScratch_n (s : ChpState) : (zeroScratch s).n = s.n := rfl

theorem zeroScratch_x (s : ChpState) (i j : Nat) :
    (zeroScratch s).x i j = if i = 2 * s.n then false else s.x i j := rfl

theorem zeroScratch_z (s : ChpState) (i j : Nat) :
    (zeroScratch s).z i j = if i = 2 * s.n then false else s.z i j := rfl

theorem zeroScratch_r (s : ChpState) (i : Nat) :
    (zeroScratch s).r i = if i = 2 * s.n then false else s.r i := rfl

theorem randCollapse_n (s : ChpState) (a p : Nat) (b : Bool) :
    (randCollapse s a p b).n = s.n := rfl

theorem randCollapse_x (s : ChpState) (a p : Nat) (b : Bool) (i j : Nat) :
    (randCollapse s a p b).x i j =
      if i = p + s.n then false
      else if i = p then s.x (p + s.n) j else s.x i j := rfl

theorem randCollapse_z (s : ChpState) (a p : Nat) (b : Bool) (i j : Nat) :
    (randCollapse s a p b).z i j =
      if i = p + s.n ∧ j = a then true
      else if i = p + s.n then false
      else if i = p then s.z (p + s.n) j else s.z i j := rfl

theorem randCollapse_r (s : ChpState) (a p : Nat) (b : Bool) (i : Nat) :
    (randCollapse s a p b).r i =
      if i = p + s.n then b
      else if i = p then s.r (p + s.n) else s.r i := by
  show (if i = p + s.n then b
    else if i = p + s.n then false
    else if i = p then s.r (p + s.n) else s.r i) = _
  by_cases h : i = p + s.n <;> simp [h]

theorem sym_congr_rows {s t : ChpState} {i k i' k' : Nat} (hn : t.n = s.n)
    (hx1 : ∀ j, j < s.n → t.x i' j = s.x i j)
    (hz1 : ∀ j, j < s.n → t.z i' j = s.z i j)
    (hx2 : ∀ j, j < s.n → t.x k' j = s.x k j)
    (hz2 : ∀ j, j < s.n → t.z k' j = s.z k j) :
    sym t i' k' = sym s i k := by
  unfold sym
  rw [hn]
  exact symp_congr hx1 hz1 hx2 hz2

theorem sym_hadamard (s : ChpState) (q i k : Nat) :
    sym (hadamard s q) i k = sym s i k := by
  unfold sym symp
  rw [hadamard_n]
  apply Finset.sum_congr rfl
  intro j _
  rw [hadamard_x, hadamard_z, hadamard_x, hadamard_z]
  by_cases h : j = q
  · subst h; simp only [eq_self_iff_true, if_true]; ring
  · simp [h]

theorem sym_phase (s : ChpState) (q i k : Nat) :
    sym (phase s q) i k = sym s i k := by
  unfold sym symp
  rw [phase_n]
  apply Finset.sum_congr rfl
  intro j _
  rw [phase_x, phase_z, phase_x, phase_z]
  by_cases h : j = q
  · subst h
    simp only [eq_self_iff_true, if_true]
    cases s.x i j <;> cases s.z i j <;> cases s.x k j <;> cases s.z k j <;>
      decide
  · simp [h]

theorem sym_cnot (s : ChpState) {c t : Nat} (hc : c < s.n) (ht : t < s.n)
    (hct : c ≠ t) (i k : Nat) : sym (cnot s c t) i k = sym s i k := by
  have hcm : c ∈ Finset.range s.n := Finset.mem_range.2 hc
  have htm : t ∈ (Finset.range s.n).erase c :=
    Finset.mem_erase.2 ⟨fun h => hct h.symm, Finset.mem_range.2 ht⟩
  have split : ∀ g : Nat → ZMod 2,
      ∑ j in Finset.range s.n, g j =
        g c + (g t + ∑ j in ((Finset.range s.n).erase c).erase t, g j) := by
    intro g
    rw [Finset.add_sum_erase _ g htm, Finset.add_sum_erase _ g hcm]
  unfold sym symp
  rw [cnot_n, split, split]
  have htail : ∑ j in ((Finset.range s.n).erase c).erase t,
      (bb ((cnot s c t).x i j) * bb ((cnot s c t).z k j) +
        bb ((cnot s c t).z i j) * bb ((cnot s c t).x k j)) =
      ∑ j in ((Finset.range s.n).erase c).erase t,
      (bb (s.x i j) * bb (s.z k j) + bb (s.z i j) * bb (s.x k j)) := by
    apply Finset.sum_congr rfl
    intro j hj
    have hjt : j ≠ t := (Finset.mem_erase.1 hj).1
    have hjc : j ≠ c := (Finset.mem_erase.1 (Finset.mem_erase.1 hj).2).1
    rw [cnot_x, cnot_z, cnot_x, cnot_z]
    simp [hjt, hjc]
  rw [htail]
  have hhead :
      bb ((cnot s c t).x i c) * bb ((cnot s c t).z k c) +
          bb ((cnot s c t).z i c) * bb ((cnot s c t).x k c) +
        (bb ((cnot s c t).x i t) * bb ((cnot s c t).z k t) +
          bb ((cnot s c t).z i t) * bb ((cnot s c t).x k t)) =
      bb (s.x i c) * bb (s.z k c) + bb (s.z i c) * bb (s.x k c) +
        (bb (s.x i t) * bb (s.z k t) + bb (s.z i t) * bb (s.x k t)) := by
    rw [cnot_x, cnot_z, cnot_x, cnot_z, cnot_x, cnot_z, cnot_x, cnot_z]
    have hct' : t ≠ c := fun h => hct h.symm
    simp only [eq_self_iff_true, if_true, if_neg hct, if_neg hct']
    cases s.x i c <;> cases s.z i c <;> cases s.x i t <;> cases s.z i t <;>
      cases s.x k c <;> cases s.z k c <;> cases s.x k t <;> cases s.z k t <;>
      decide
  linear_combination hhead

theorem bb_decide (P : Prop) [Decidable P] :
    bb (decide P) = if P then 1 else 0 := by
  by_cases h : P <;> simp [bb, h]

theorem Inv_new (nq : Nat) : Inv (new nq) := by
  have hxD : ∀ m, m < nq → ∀ j, j < nq → (new nq).x m j = decide (j = m) := by
    intro m _ j _
    rw [new_x, decide_eq_decide]
    exact eq_comm
  have hzD : ∀ m, m < nq → ∀ j, j < nq → (new nq).z m j = false := by
    intro m hm j _
    rw [new_z]
    simp only [decide_eq_false_iff_not]
    omega
  have hxS : ∀ m, nq ≤ m → ∀ j, j < nq → (new nq).x m j = false := by
    intro m hm j hj
    rw [new_x]
    simp only [decide_eq_false_iff_not]
    omega
  have hzS : ∀ m, nq ≤ m → ∀ j, j < nq → (new nq).z m j = decide (j = m - nq) := by
    intro m hm j _
    rw [new_z, decide_eq_decide]
    omega
  intro i k hi hk
  unfold sym
  rw [new_n] at hi hk ⊢
  by_cases hi' : i < nq <;> by_cases hk' : k < nq
  · rw [symp_congr (hxD i hi') (hzD i hi') (hxD k hk') (hzD k hk'),
      symp_pointX_left hi']
    rw [if_neg (by omega : ¬(i + nq = k ∨ k + nq = i))]
    rfl
  · rw [symp_congr (hxD i hi') (hzD i hi') (hxS k (by omega)) (hzS k (by omega)),
      symp_pointX_left hi', bb_decide,
      if_congr (by omega : (i = k - nq) ↔ (i + nq = k ∨ k + nq = i)) rfl rfl]
  · rw [symp_congr (hxS i (by omega)) (hzS i (by omega)) (hxD k hk') (hzD k hk'),
      symp_Za_left (by omega : i - nq < nq), bb_decide,
      if_congr (by omega : (i - nq = k) ↔ (i + nq = k ∨ k + nq = i)) rfl rfl]
  · rw [symp_congr (hxS i (by omega)) (hzS i (by omega)) (hxS k (by omega))
      (hzS k (by omega)), symp_Za_left (by omega : i - nq < nq)]
    rw [if_neg (by omega : ¬(i + nq = k ∨ k + nq = i))]
    rfl

theorem Inv_cnot {s : ChpState} {c t : Nat} (hInv : Inv s) (hc : c < s.n)
    (ht : t < s.n) (hct : c ≠ t) : Inv (cnot s c t) := by
  intro i k hi hk
  rw [cnot_n] at hi hk ⊢
  rw [sym_cnot s hc ht hct]
  exact hInv i k hi hk

theorem Inv_hadamard {s : ChpState} {q : Nat} (hInv : Inv s) :
    Inv (hadamard s q) := by
  intro i k hi hk
  rw [hadamard_n] at hi hk ⊢
  rw [sym_hadamard]
  exact hInv i k hi hk

theorem Inv_phase {s : ChpState} {q : Nat} (hInv : Inv s) :
    Inv (phase s q) := by
  intro i k hi hk
  rw [phase_n] at hi hk ⊢
  rw [sym_phase]
  exact hInv i k hi hk

theorem rowTotal_congr {s t : ChpState} {i k i' k' : Nat} (hn : t.n = s.n)
    (hx1 : ∀ j, j < s.n → t.x i' j = s.x i j)
    (hz1 : ∀ j, j < s.n → t.z i' j = s.z i j)
    (hx2 : ∀ j, j < s.n → t.x k' j = s.x k j)
    (hz2 : ∀ j, j < s.n → t.z k' j = s.z k j) :
    rowTotal t i' k' = rowTotal s i k := by
  unfold rowTotal
  rw [hn]
  exact Finset.sum_congr rfl fun j hj => by
    rw [hx1 j (Finset.mem_range.1 hj), hz1 j (Finset.mem_range.1 hj),
      hx2 j (Finset.mem_range.1 hj), hz2 j (Finset.mem_range.1 hj)]

theorem rpsVal_congr {s t : ChpState} {i k i' k' : Nat} (hn : t.n = s.n)
    (hx1 : ∀ j, j < s.n → t.x i' j = s.x i j)
    (hz1 : ∀ j, j < s.n → t.z i' j = s.z i j)
    (hx2 : ∀ j, j < s.n → t.x k' j = s.x k j)
    (hz2 : ∀ j, j < s.n → t.z k' j = s.z k j)
    (hr1 : t.r i' = s.r i) (hr2 : t.r k' = s.r k) :
    rpsVal t i' k' = rpsVal s i k := by
  unfold rpsVal
  rw [rowTotal_congr hn hx1 hz1 hx2 hz2, hr1, hr2]

theorem foldOut_nil (s4 : ChpState) (a p : Nat) (st : ChpState) :
    foldOut s4 a p st [] = st := by
  refine stateExt rfl (fun i j => ?_) (fun i j => ?_) (fun i => ?_) <;>
    simp [foldOut]

theorem stepR_eq (a p : Nat) (st : ChpState) (log : List (Nat × Nat))
    (i : Nat) :
    stepR a p (st, log) i =
      if (st.x i a && !decide (i = p) && !decide (i = p + st.n)) = true then
        (rowMult st i p).map fun stx => (stx, log ++ [(i, p)])
      else some (st, log) := rfl

theorem rowMultVal_n (s : ChpState) (i k : Nat) : (rowMultVal s i k).n = s.n :=
  rfl

theorem rowMultVal_x (s : ChpState) (i k i' j : Nat) :
    (rowMultVal s i k).x i' j =
      if i' = i then (if j < s.n then s.x i j ^^ s.x k j else s.x i' j)
      else s.x i' j := rfl

theorem rowMultVal_z (s : ChpState) (i k i' j : Nat) :
    (rowMultVal s i k).z i' j =
      if i' = i then (if j < s.n then s.z i j ^^ s.z k j else s.z i' j)
      else s.z i' j := rfl

theorem rowMultVal_r (s : ChpState) (i k i' : Nat) :
    (rowMultVal s i k).r i' =
      if i' = i then rpsVal s i k else s.r i' := rfl

theorem foldOut_n (s4 : ChpState) (a p : Nat) (st : ChpState) (L : List Nat) :
    (foldOut s4 a p st L).n = st.n := rfl

theorem foldOut_x (s4 : ChpState) (a p : Nat) (st : ChpState) (L : List Nat)
    (i j : Nat) :
    (foldOut s4 a p st L).x i j =
      if i ∈ L ∧ trig s4 a p i = true ∧ j < s4.n then s4.x i j ^^ s4.x p j
      else st.x i j := rfl

theorem foldOut_z (s4 : ChpState) (a p : Nat) (st : ChpState) (L : List Nat)
    (i j : Nat) :
    (foldOut s4 a p st L).z i j =
      if i ∈ L ∧ trig s4 a p i = true ∧ j < s4.n then s4.z i j ^^ s4.z p j
      else st.z i j := rfl

theorem foldOut_r (s4 : ChpState) (a p : Nat) (st : ChpState) (L : List Nat)
    (i : Nat) :
    (foldOut s4 a p st L).r i =
      if i ∈ L ∧ trig s4 a p i = true then rpsVal s4 i p else st.r i := rfl

theorem foldOut_cons_skip (s4 : ChpState) (a p : Nat) (st : ChpState)
    (i : Nat) (L' : List Nat) (htr : trig s4 a p i = false) :
    foldOut s4 a p st L' = foldOut s4 a p st (i :: L') := by
  have hmem : ∀ i', i' ∈ i :: L' → trig s4 a p i' = true → i' ∈ L' := by
    intro i' h1 h2
    rcases List.mem_cons.1 h1 with h | h
    · rw [h, htr] at h2
      cases h2
    · exact h
  refine stateExt rfl (fun i' j => ?_) (fun i' j => ?_) (fun i' => ?_)
  · rw [foldOut_x, foldOut_x]
    by_cases hc : i' ∈ L' ∧ trig s4 a p i' = true ∧ j < s4.n
    · rw [if_pos hc, if_pos ⟨List.mem_cons_of_mem i hc.1, hc.2⟩]
    · rw [if_neg hc, if_neg (fun hc2 => hc ⟨hmem i' hc2.1 hc2.2.1, hc2.2⟩)]
  · rw [foldOut_z, foldOut_z]
    by_cases hc : i' ∈ L' ∧ trig s4 a p i' = true ∧ j < s4.n
    · rw [if_pos hc, if_pos ⟨List.mem_cons_of_mem i hc.1, hc.2⟩]
    · rw [if_neg hc, if_neg (fun hc2 => hc ⟨hmem i' hc2.1 hc2.2.1, hc2.2⟩)]
  · rw [foldOut_r, foldOut_r]
    by_cases hc : i' ∈ L' ∧ trig s4 a p i' = true
    · rw [if_pos hc, if_pos ⟨List.mem_cons_of_mem i hc.1, hc.2⟩]
    · rw [if_neg hc, if_neg (fun hc2 => hc ⟨hmem i' hc2.1 hc2.2, hc2.2⟩)]

theorem foldOut_cons_step (s4 : ChpState) (a p : Nat) (st : ChpState)
    (i : Nat) (L' : List Nat) (htr : trig s4 a p i = true)
    (hn : st.n = s4.n)
    (hfrx : ∀ j, st.x i j = s4.x i j) (hfrz : ∀ j, st.z i j = s4.z i j)
    (hfrr : st.r i = s4.r i)
    (hfpx : ∀ j, st.x p j = s4.x p j) (hfpz : ∀ j, st.z p j = s4.z p j)
    (hfpr : st.r p = s4.r p) :
    foldOut s4 a p (rowMultVal st i p) L' = foldOut s4 a p st (i :: L') := by
  refine stateExt rfl (fun i' j => ?_) (fun i' j => ?_) (fun i' => ?_)
  · rw [foldOut_x, foldOut_x, rowMultVal_x]
    by_cases hc : i' ∈ L' ∧ trig s4 a p i' = true ∧ j < s4.n
    · rw [if_pos hc, if_pos ⟨List.mem_cons_of_mem i hc.1, hc.2⟩]
    · rw [if_neg hc]
      by_cases hii : i' = i
      · subst hii
        rw [if_pos rfl]
        by_cases hj : j < s4.n
        · rw [if_pos (by omega : j < st.n),
            if_pos ⟨List.mem_cons_self i' L', htr, hj⟩, hfrx j, hfpx j]
        · rw [if_neg (by omega : ¬ j < st.n),
            if_neg (fun hc2 => hj hc2.2.2)]
      · rw [if_neg hii,
          if_neg (fun hc2 => hc ⟨(List.mem_cons.1 hc2.1).resolve_left hii,
            hc2.2⟩)]
  · rw [foldOut_z, foldOut_z, rowMultVal_z]
    by_cases hc : i' ∈ L' ∧ trig s4 a p i' = true ∧ j < s4.n
    · rw [if_pos hc, if_pos ⟨List.mem_cons_of_mem i hc.1, hc.2⟩]
    · rw [if_neg hc]
      by_cases hii : i' = i
      · subst hii
        rw [if_pos rfl]
        by_cases hj : j < s4.n
        · rw [if_pos (by omega : j < st.n),
            if_pos ⟨List.mem_cons_self i' L', htr, hj⟩, hfrz j, hfpz j]
        · rw [if_neg (by omega : ¬ j < st.n),
            if_neg (fun hc2 => hj hc2.2.2)]
      · rw [if_neg hii,
          if_neg (fun hc2 => hc ⟨(List.mem_cons.1 hc2.1).resolve_left hii,
            hc2.2⟩)]
  · rw [foldOut_r, foldOut_r, rowMultVal_r]
    by_cases hc : i' ∈ L' ∧ trig s4 a p i' = true
    · rw [if_pos hc, if_pos ⟨List.mem_cons_of_mem i hc.1, hc.2⟩]
    · rw [if_neg hc]
      by_cases hii : i' = i
      · subst hii
        rw [if_pos rfl, if_pos ⟨List.mem_cons_self i' L', htr⟩]
        exact rpsVal_congr hn (fun j _ => hfrx j) (fun j _ => hfrz j)
          (fun j _ => hfpx j) (fun j _ => hfpz j) hfrr hfpr
      · rw [if_neg hii,
          if_neg (fun hc2 => hc ⟨(List.mem_cons.1 hc2.1).resolve_left hii,
            hc2.2⟩)]

theorem foldR_form (s4 : ChpState) (a p : Nat) :
    ∀ L : List Nat, L.Nodup →
    ∀ (st : ChpState) (log : List (Nat × Nat)), st.n = s4.n →
    (∀ i, i ∈ L →
      (∀ j, st.x i j = s4.x i j ∧ st.z i j = s4.z i j) ∧ st.r i = s4.r i) →
    (∀ j, st.x p j = s4.x p j ∧ st.z p j = s4.z p j) → st.r p = s4.r p →
    ∀ res, L.foldlM (stepR a p) (st, log) = some res →
      res = (foldOut s4 a p st L, log ++ callsOf s4 a p L) := by
  intro L
  induction L with
  | nil =>
    intro _ st log _ _ _ _ res hres
    rw [List.foldlM_nil] at hres
    cases hres
    rw [foldOut_nil]
    simp [callsOf]
  | cons i L' ih =>
    intro hnd st log hn hfresh hfp hfpr res hres
    have hndL' : L'.Nodup := (List.nodup_cons.1 hnd).2
    have hiL' : i ∉ L' := (List.nodup_cons.1 hnd).1
    have hfreshi := hfresh i (List.mem_cons_self i L')
    have hguard : (st.x i a && !decide (i = p) && !decide (i = p + st.n)) =
        trig s4 a p i := by
      rw [(hfreshi.1 a).1, hn]
      rfl
    rw [List.foldlM_cons, stepR_eq, hguard] at hres
    by_cases htr : trig s4 a p i = true
    · have hip : i ≠ p := by
        intro h
        unfold trig at htr
        simp [h] at htr
      rw [if_pos htr, rowMult_eq] at hres
      by_cases hev : rowTotal st i p % 2 = 0
      · rw [if_pos hev] at hres
        have hres' : L'.foldlM (stepR a p)
            (rowMultVal st i p, log ++ [(i, p)]) = some res := hres
        have hst1n : (rowMultVal st i p).n = s4.n := hn
        have hst1fresh : ∀ i', i' ∈ L' →
            (∀ j, (rowMultVal st i p).x i' j = s4.x i' j ∧
              (rowMultVal st i p).z i' j = s4.z i' j) ∧
              (rowMultVal st i p).r i' = s4.r i' := by
          intro i' hi'
          have hne : i' ≠ i := fun h => hiL' (h ▸ hi')
          have hxz := hfresh i' (List.mem_cons_of_mem i hi')
          refine ⟨fun j => ?_, ?_⟩
          · rw [rowMultVal_x, if_neg hne, rowMultVal_z, if_neg hne]
            exact hxz.1 j
          · rw [rowMultVal_r, if_neg hne]
            exact hxz.2
        have hst1p : ∀ j, (rowMultVal st i p).x p j = s4.x p j ∧
            (rowMultVal st i p).z p j = s4.z p j := by
          intro j
          rw [rowMultVal_x, if_neg (Ne.symm hip), rowMultVal_z,
            if_neg (Ne.symm hip)]
          exact hfp j
        have hst1pr : (rowMultVal st i p).r p = s4.r p := by
          rw [rowMultVal_r, if_neg (Ne.symm hip)]
          exact hfpr
        have hout := ih hndL' (rowMultVal st i p) (log ++ [(i, p)]) hst1n
          hst1fresh hst1p hst1pr res hres'
        rw [hout,
          foldOut_cons_step s4 a p st i L' htr hn
            (fun j => (hfreshi.1 j).1) (fun j => (hfreshi.1 j).2) hfreshi.2
            (fun j => (hfp j).1) (fun j => (hfp j).2) hfpr]
        have hcalls : callsOf s4 a p (i :: L') = (i, p) :: callsOf s4 a p L' := by
          unfold callsOf
          rw [List.filter_cons, if_pos htr]
          rfl
        rw [hcalls]
        simp
      · rw [if_neg hev] at hres
        simp at hres
    · have htr' : trig s4 a p i = false := by
        cases h : trig s4 a p i
        · rfl
        · exact absurd h htr
      rw [if_neg htr] at hres
      have hres' : L'.foldlM (stepR a p) (st, log) = some res := hres
      have hout := ih hndL' st log hn
        (fun i' hi' => hfresh i' (List.mem_cons_of_mem i hi')) hfp hfpr
        res hres'
      rw [hout, foldOut_cons_skip s4 a p st i L' htr']
      have hcalls : callsOf s4 a p (i :: L') = callsOf s4 a p L' := by
        unfold callsOf
        rw [List.filter_cons, if_neg (by simp [htr'])]
      rw [hcalls]

theorem foldR_some (s4 : ChpState) (a p : Nat) :
    ∀ L : List Nat, L.Nodup →
    ∀ (st : ChpState) (log : List (Nat × Nat)), st.n = s4.n →
    (∀ i, i ∈ L →
      (∀ j, st.x i j = s4.x i j ∧ st.z i j = s4.z i j) ∧ st.r i = s4.r i) →
    (∀ j, st.x p j = s4.x p j ∧ st.z p j = s4.z p j) → st.r p = s4.r p →
    (∀ i, i ∈ L → trig s4 a p i = true → rowTotal s4 i p % 2 = 0) →
    (L.foldlM (stepR a p) (st, log)).isSome = true := by
  intro L
  induction L with
  | nil =>
    intro _ st log _ _ _ _ _
    rw [List.foldlM_nil]
    rfl
  | cons i L' ih =>
    intro hnd st log hn hfresh hfp hfpr hEv
    have hndL' : L'.Nodup := (List.nodup_cons.1 hnd).2
    have hiL' : i ∉ L' := (List.nodup_cons.1 hnd).1
    have hfreshi := hfresh i (List.mem_cons_self i L')
    have hguard : (st.x i a && !decide (i = p) && !decide (i = p + st.n)) =
        trig s4 a p i := by
      rw [(hfreshi.1 a).1, hn]
      rfl
    rw [List.foldlM_cons, stepR_eq, hguard]
    by_cases htr : trig s4 a p i = true
    · have hip : i ≠ p := by
        intro h
        unfold trig at htr
        simp [h] at htr
      have heq_tot : rowTotal st i p = rowTotal s4 i p :=
        rowTotal_congr hn (fun j _ => (hfreshi.1 j).1)
          (fun j _ => (hfreshi.1 j).2) (fun j _ => (hfp j).1)
          (fun j _ => (hfp j).2)
      have hev : rowTotal st i p % 2 = 0 := by
        rw [heq_tot]
        exact hEv i (List.mem_cons_self i L') htr
      rw [if_pos htr, rowMult_eq, if_pos hev]
      show (L'.foldlM (stepR a p) (rowMultVal st i p, log ++ [(i, p)])).isSome
        = true
      have hst1n : (rowMultVal st i p).n = s4.n := hn
      have hst1fresh : ∀ i', i' ∈ L' →
          (∀ j, (rowMultVal st i p).x i' j = s4.x i' j ∧
            (rowMultVal st i p).z i' j = s4.z i' j) ∧
            (rowMultVal st i p).r i' = s4.r i' := by
        intro i' hi'
        have hne : i' ≠ i := fun h => hiL' (h ▸ hi')
        have hxz := hfresh i' (List.mem_cons_of_mem i hi')
        refine ⟨fun j => ?_, ?_⟩
        · rw [rowMultVal_x, if_neg hne, rowMultVal_z, if_neg hne]
          exact hxz.1 j
        · rw [rowMultVal_r, if_neg hne]
          exact hxz.2
      have hst1p : ∀ j, (rowMultVal st i p).x p j = s4.x p j ∧
          (rowMultVal st i p).z p j = s4.z p j := by
        intro j
        rw [rowMultVal_x, if_neg (Ne.symm hip), rowMultVal_z,
          if_neg (Ne.symm hip)]
        exact hfp j
      have hst1pr : (rowMultVal st i p).r p = s4.r p := by
        rw [rowMultVal_r, if_neg (Ne.symm hip)]
        exact hfpr
      exact ih hndL' (rowMultVal st i p) (log ++ [(i, p)]) hst1n hst1fresh
        hst1p hst1pr
        (fun i' hi' => hEv i' (List.mem_cons_of_mem i hi'))
    · rw [if_neg htr]
      show (L'.foldlM (stepR a p) (st, log)).isSome = true
      exact ih hndL' st log hn
        (fun i' hi' => hfresh i' (List.mem_cons_of_mem i hi')) hfp hfpr
        (fun i' hi' => hEv i' (List.mem_cons_of_mem i hi'))

theorem stepD_eq (a : Nat) (st : ChpState) (i : Nat) :
    stepD a st i =
      if st.x i a = true then rowMult st (2 * st.n) (i + st.n)
      else some st := rfl

theorem foldD_frame (a : Nat) :
    ∀ (L : List Nat) (st st' : ChpState),
    L.foldlM (stepD a) st = some st' →
    st'.n = st.n ∧ ∀ i, i ≠ 2 * st.n →
      (∀ j, st'.x i j = st.x i j ∧ st'.z i j = st.z i j) ∧ st'.r i = st.r i := by
  intro L
  induction L with
  | nil =>
    intro st st' h
    rw [List.foldlM_nil] at h
    cases h
    exact ⟨rfl, fun i _ => ⟨fun j => ⟨rfl, rfl⟩, rfl⟩⟩
  | cons i L' ih =>
    intro st st' h
    rw [List.foldlM_cons, stepD_eq] at h
    by_cases hx : st.x i a = true
    · rw [if_pos hx, rowMult_eq] at h
      by_cases hev : rowTotal st (2 * st.n) (i + st.n) % 2 = 0
      · rw [if_pos hev] at h
        have h' : L'.foldlM (stepD a)
            (rowMultVal st (2 * st.n) (i + st.n)) = some st' := h
        have hih := ih (rowMultVal st (2 * st.n) (i + st.n)) st' h'
        refine ⟨hih.1, fun i' hi' => ?_⟩
        have hi'2 : i' ≠ 2 * (rowMultVal st (2 * st.n) (i + st.n)).n := hi'
        have hk := hih.2 i' hi'2
        refine ⟨fun j => ?_, ?_⟩
        · rw [(hk.1 j).1, (hk.1 j).2, rowMultVal_x, if_neg hi', rowMultVal_z,
            if_neg hi']
          exact ⟨rfl, rfl⟩
        · rw [hk.2, rowMultVal_r, if_neg hi']
      · rw [if_neg hev] at h
        simp at h
    · rw [if_neg hx] at h
      exact ih st st' h

theorem foldD_id (a : Nat) :
    ∀ (L : List Nat) (st : ChpState),
    (∀ i, i ∈ L → st.x i a = false) →
    L.foldlM (stepD a) st = some st := by
  intro L
  induction L with
  | nil =>
    intro st _
    rw [List.foldlM_nil]
    rfl
  | cons i L' ih =>
    intro st hoff
    rw [List.foldlM_cons, stepD_eq,
      if_neg (by rw [hoff i (List.mem_cons_self i L')]; exact Bool.false_ne_true)]
    show L'.foldlM (stepD a) st = some st
    exact ih st fun i' hi' => hoff i' (List.mem_cons_of_mem i hi')

theorem foldD_singleton (a p0 : Nat) :
    ∀ L : List Nat, L.Nodup → ∀ st : ChpState,
    (∀ i, i ∈ L → i < st.n) →
    (∀ i, i ∈ L → i ≠ p0 → st.x i a = false) →
    p0 ∈ L → st.x p0 a = true →
    rowTotal st (2 * st.n) (p0 + st.n) % 2 = 0 →
    L.foldlM (stepD a) st = some (rowMultVal st (2 * st.n) (p0 + st.n)) := by
  intro L
  induction L with
  | nil =>
    intro _ st _ _ hp0
    cases hp0
  | cons i L' ih =>
    intro hnd st hlt hoff hp0 hx hev
    have hndL' : L'.Nodup := (List.nodup_cons.1 hnd).2
    have hiL' : i ∉ L' := (List.nodup_cons.1 hnd).1
    rw [List.foldlM_cons, stepD_eq]
    by_cases hip : i = p0
    · subst hip
      rw [if_pos hx, rowMult_eq, if_pos hev]
      show L'.foldlM (stepD a) (rowMultVal st (2 * st.n) (i + st.n)) = some _
      exact foldD_id a L' _ fun i' hi' => by
        have hne : i' ≠ 2 * st.n := by
          have := hlt i' (List.mem_cons_of_mem i hi')
          omega
        rw [rowMultVal_x, if_neg hne]
        exact hoff i' (List.mem_cons_of_mem i hi') (fun h => hiL' (h ▸ hi'))
    · have hxi : st.x i a = false := hoff i (List.mem_cons_self i L') hip
      rw [if_neg (by rw [hxi]; exact Bool.false_ne_true)]
      show L'.foldlM (stepD a) st = some _
      exact ih hndL' st (fun i' hi' => hlt i' (List.mem_cons_of_mem i hi'))
        (fun i' hi' => hoff i' (List.mem_cons_of_mem i hi'))
        ((List.mem_cons.1 hp0).resolve_left (fun h => hip h.symm)) hx hev

theorem foldD_some (a : Nat) (s : ChpState) (hInv : Inv s) :
    ∀ L : List Nat, (∀ i, i ∈ L → i < s.n) →
    ∀ st : ChpState, st.n = s.n →
    (∀ i, i ≠ 2 * s.n → ∀ j, st.x i j = s.x i j ∧ st.z i j = s.z i j) →
    (∀ k, k < s.n → symp s.n (st.x (2 * s.n)) (st.z (2 * s.n))
      (s.x (k + s.n)) (s.z (k + s.n)) = 0) →
    (L.foldlM (stepD a) st).isSome = true := by
  intro L
  induction L with
  | nil =>
    intro _ st _ _ _
    rw [List.foldlM_nil]
    rfl
  | cons i L' ih =>
    intro hlt st hn hrows hscr
    have hi : i < s.n := hlt i (List.mem_cons_self i L')
    have h2n : (2 : Nat) * st.n = 2 * s.n := by omega
    rw [List.foldlM_cons, stepD_eq]
    by_cases hx : st.x i a = true
    · -- the triggered row commutes with the scratch product
      have hin2 : i + s.n ≠ 2 * s.n := by omega
      have hsym : sym st (2 * st.n) (i + st.n) = 0 := by
        unfold sym
        rw [hn]
        have hcg : symp s.n (st.x (2 * s.n)) (st.z (2 * s.n))
            (st.x (i + s.n)) (st.z (i + s.n)) =
            symp s.n (st.x (2 * s.n)) (st.z (2 * s.n))
            (s.x (i + s.n)) (s.z (i + s.n)) :=
          symp_congr (fun j _ => rfl) (fun j _ => rfl)
            (fun j _ => (hrows (i + s.n) hin2 j).1)
            (fun j _ => (hrows (i + s.n) hin2 j).2)
        rw [hcg]
        exact hscr i hi
      have hev : rowTotal st (2 * st.n) (i + st.n) % 2 = 0 :=
        (even_iff_sym st _ _).2 hsym
      rw [if_pos hx, rowMult_eq, if_pos hev]
      show (L'.foldlM (stepD a)
        (rowMultVal st (2 * st.n) (i + st.n))).isSome = true
      set st1 := rowMultVal st (2 * st.n) (i + st.n) with hst1
      have hst1n : st1.n = s.n := hn
      have hst1rows : ∀ i', i' ≠ 2 * s.n →
          ∀ j, st1.x i' j = s.x i' j ∧ st1.z i' j = s.z i' j := by
        intro i' hi' j
        have hi'' : i' ≠ 2 * st.n := by omega
        rw [hst1, rowMultVal_x, if_neg hi'', rowMultVal_z, if_neg hi'']
        exact hrows i' hi' j
      have hst1scr : ∀ k, k < s.n → symp s.n (st1.x (2 * s.n))
          (st1.z (2 * s.n)) (s.x (k + s.n)) (s.z (k + s.n)) = 0 := by
        intro k hk
        have hxor : symp s.n (st1.x (2 * s.n)) (st1.z (2 * s.n))
            (s.x (k + s.n)) (s.z (k + s.n)) =
            symp s.n (fun j => st.x (2 * s.n) j ^^ st.x (i + s.n) j)
              (fun j => st.z (2 * s.n) j ^^ st.z (i + s.n) j)
              (s.x (k + s.n)) (s.z (k + s.n)) := by
          refine symp_congr (fun j hj => ?_) (fun j hj => ?_)
            (fun j _ => rfl) (fun j _ => rfl)
          · rw [hst1, rowMultVal_x, ← h2n, if_pos rfl, if_pos (by omega : j < st.n)]
            rw [h2n, hn]
          · rw [hst1, rowMultVal_z, ← h2n, if_pos rfl, if_pos (by omega : j < st.n)]
            rw [h2n, hn]
        rw [hxor, symp_add_left]
        have h1 := hscr k hk
        have h2 : symp s.n (st.x (i + s.n)) (st.z (i + s.n))
            (s.x (k + s.n)) (s.z (k + s.n)) =
            symp s.n (s.x (i + s.n)) (s.z (i + s.n))
              (s.x (k + s.n)) (s.z (k + s.n)) :=
          symp_congr (fun j _ => (hrows (i + s.n) hin2 j).1)
            (fun j _ => (hrows (i + s.n) hin2 j).2)
            (fun j _ => rfl) (fun j _ => rfl)
        have h3 : sym s (i + s.n) (k + s.n) = 0 := by
          rw [hInv (i + s.n) (k + s.n) (by omega) (by omega)]
          rw [if_neg (by omega : ¬(i + s.n + s.n = k + s.n ∨
            k + s.n + s.n = i + s.n))]
        rw [h1, h2]
        rw [show symp s.n (s.x (i + s.n)) (s.z (i + s.n)) (s.x (k + s.n))
          (s.z (k + s.n)) = sym s (i + s.n) (k + s.n) from rfl, h3]
        exact zero_add 0
      exact ih (fun i' hi' => hlt i' (List.mem_cons_of_mem i hi')) st1 hst1n
        hst1rows hst1scr
    · rw [if_neg hx]
      show (L'.foldlM (stepD a) st).isSome = true
      exact ih (fun i' hi' => hlt i' (List.mem_cons_of_mem i hi')) st hn
        hrows hscr

theorem find_range_some {nn : Nat} {pred : Nat → Bool} {p : Nat}
    (h : (List.range nn).find? pred = some p) :
    pred p = true ∧ p < nn ∧ ∀ q, q < p → pred q = false := by
  induction nn with
  | zero =>
    rw [List.range_zero, List.find?_nil] at h
    cases h
  | succ nn ih =>
    rw [List.range_succ, List.find?_append] at h
    cases hfind : (List.range nn).find? pred with
    | some p' =>
      rw [hfind] at h
      have h2 : p' = p := Option.some_injective _ h
      subst h2
      have hih := ih hfind
      exact ⟨hih.1, by omega, hih.2.2⟩
    | none =>
      rw [hfind] at h
      have h3 : List.find? pred [nn] = some p := h
      clear h
      rename' h3 => h
      cases hpn : pred nn with
      | false =>
        simp [List.find?, hpn] at h
      | true =>
        simp only [List.find?, hpn] at h
        cases h
        refine ⟨hpn, by omega, fun q hq => ?_⟩
        cases hpq : pred q with
        | false => rfl
        | true =>
          exact absurd hpq
            (List.find?_eq_none.1 hfind q (List.mem_range.2 (by omega)))

theorem find_range_none {nn : Nat} {pred : Nat → Bool}
    (h : (List.range nn).find? pred = none) :
    ∀ q, q < nn → pred q = false := by
  intro q hq
  cases hpq : pred q with
  | false => rfl
  | true => exact absurd hpq (List.find?_eq_none.1 h q (List.mem_range.2 hq))

theorem find_range_of_least {nn : Nat} {pred : Nat → Bool} {p : Nat}
    (hp : p < nn) (hpred : pred p = true)
    (hleast : ∀ q, q < p → pred q = false) :
    (List.range nn).find? pred = some p := by
  induction nn with
  | zero => omega
  | succ nn ih =>
    rw [List.range_succ, List.find?_append]
    by_cases hlt : p < nn
    · rw [ih hlt]
      rfl
    · have hpn : p = nn := by omega
      subst hpn
      have hnone : (List.range p).find? pred = none := by
        rw [List.find?_eq_none]
        intro q hq
        rw [hleast q (List.mem_range.1 hq)]
        exact Bool.false_ne_true
      rw [hnone]
      show List.find? pred [p] = some p
      simp [List.find?, hpred]

theorem measure_eq_random {s : ChpState} {q : Nat} (b : Bool) {p : Nat}
    (h : (List.range s.n).find? (fun p' => s.x (p' + s.n) q) = some p) :
    measure s q b = measureRandom s q p b := by
  unfold measure
  rw [h]

theorem measure_eq_det {s : ChpState} {q : Nat} (b : Bool)
    (h : (List.range s.n).find? (fun p' => s.x (p' + s.n) q) = none) :
    measure s q b = measureDetermined s q := by
  unfold measure
  rw [h]

theorem trig_at_p (s4 : ChpState) (a p : Nat) : trig s4 a p p = false := by
  unfold trig
  simp

theorem trig_at_pn (s4 : ChpState) (a p i : Nat) (h : i = p + s4.n) :
    trig s4 a p i = false := by
  subst h
  unfold trig
  simp

theorem trig_other {s4 : ChpState} {a p i : Nat} (h1 : i ≠ p)
    (h2 : i ≠ p + s4.n) : trig s4 a p i = s4.x i a := by
  unfold trig
  simp [h1, h2]

theorem rc_x_pn (s : ChpState) (a p : Nat) (b : Bool) (j : Nat) :
    (randCollapse s a p b).x (p + s.n) j = false := by
  rw [randCollapse_x, if_pos rfl]

theorem rc_z_pn (s : ChpState) (a p : Nat) (b : Bool) (j : Nat) :
    (randCollapse s a p b).z (p + s.n) j = decide (j = a) := by
  rw [randCollapse_z]
  by_cases h : j = a
  · simp [h]
  · simp [h]

theorem rc_r_pn (s : ChpState) (a p : Nat) (b : Bool) :
    (randCollapse s a p b).r (p + s.n) = b := by
  rw [randCollapse_r, if_pos rfl]

theorem rc_x_p {s : ChpState} {a p : Nat} {b : Bool} (hp : p < s.n) (j : Nat) :
    (randCollapse s a p b).x p j = s.x (p + s.n) j := by
  rw [randCollapse_x, if_neg (by omega), if_pos rfl]

theorem rc_z_p {s : ChpState} {a p : Nat} {b : Bool} (hp : p < s.n) (j : Nat) :
    (randCollapse s a p b).z p j = s.z (p + s.n) j := by
  rw [randCollapse_z, if_neg (fun hc => absurd hc.1 (by omega)),
    if_neg (by omega), if_pos rfl]

theorem rc_r_p {s : ChpState} {a p : Nat} {b : Bool} (hp : p < s.n) :
    (randCollapse s a p b).r p = s.r (p + s.n) := by
  rw [randCollapse_r, if_neg (by omega), if_pos rfl]

theorem rc_x_other {s : ChpState} {a p i : Nat} {b : Bool} (h1 : i ≠ p)
    (h2 : i ≠ p + s.n) (j : Nat) :
    (randCollapse s a p b).x i j = s.x i j := by
  rw [randCollapse_x, if_neg h2, if_neg h1]

theorem rc_z_other {s : ChpState} {a p i : Nat} {b : Bool} (h1 : i ≠ p)
    (h2 : i ≠ p + s.n) (j : Nat) :
    (randCollapse s a p b).z i j = s.z i j := by
  rw [randCollapse_z, if_neg (fun hc => h2 hc.1), if_neg h2, if_neg h1]

theorem rc_r_other {s : ChpState} {a p i : Nat} {b : Bool} (h1 : i ≠ p)
    (h2 : i ≠ p + s.n) :
    (randCollapse s a p b).r i = s.r i := by
  rw [randCollapse_r, if_neg h2, if_neg h1]

theorem mra_form {s : ChpState} {a p : Nat} {b : Bool} {st : ChpState}
    {log : List (Nat × Nat)}
    (h : measureRandomAux s a p b = some (st, log)) :
    st = foldOut (randCollapse s a p b) a p (randCollapse s a p b)
        (List.range (2 * s.n)) ∧
      log = callsOf (randCollapse s a p b) a p (List.range (2 * s.n)) := by
  unfold measureRandomAux at h
  have hform := foldR_form (randCollapse s a p b) a p (List.range (2 * s.n))
    (List.nodup_range _) (randCollapse s a p b) [] rfl
    (fun i _ => ⟨fun j => ⟨rfl, rfl⟩, rfl⟩) (fun j => ⟨rfl, rfl⟩) rfl
    (st, log) h
  refine ⟨congrArg Prod.fst hform, ?_⟩
  have h2 := congrArg Prod.snd hform
  simpa using h2

theorem mra_some {s : ChpState} {a p : Nat} {b : Bool}
    (hEv : ∀ i, i < 2 * s.n → trig (randCollapse s a p b) a p i = true →
      rowTotal (randCollapse s a p b) i p % 2 = 0) :
    (measureRandomAux s a p b).isSome = true := by
  unfold measureRandomAux
  exact foldR_some (randCollapse s a p b) a p (List.range (2 * s.n))
    (List.nodup_range _) (randCollapse s a p b) [] rfl
    (fun i _ => ⟨fun j => ⟨rfl, rfl⟩, rfl⟩) (fun j => ⟨rfl, rfl⟩) rfl
    (fun i hi => hEv i (List.mem_range.1 hi))

theorem measureRandom_some {s : ChpState} {a p : Nat} {b : Bool}
    {s' : ChpState} {r : MeasureResult}
    (h : measureRandom s a p b = some (s', r)) :
    s.x (p + s.n) a = true ∧ ∃ log, measureRandomAux s a p b = some (s', log) ∧
      r = ⟨s'.r (p + s'.n), false⟩ := by
  unfold measureRandom at h
  by_cases hxa : s.x (p + s.n) a = true
  · rw [if_pos hxa] at h
    cases haux : measureRandomAux s a p b with
    | none =>
      rw [haux] at h
      cases h
    | some stl =>
      rw [haux] at h
      obtain ⟨st0, log0⟩ := stl
      have hinj := Option.some_injective _ h
      have h1 : st0 = s' := congrArg Prod.fst hinj
      refine ⟨hxa, log0, ?_, ?_⟩
      · rw [← h1]
      · rw [← h1]
        exact (congrArg Prod.snd hinj).symm
  · rw [if_neg hxa] at h
    cases h

theorem measureDetermined_some {s : ChpState} {a : Nat} {s' : ChpState}
    {r : MeasureResult} (h : measureDetermined s a = some (s', r)) :
    (List.range s.n).foldlM (stepD a) (zeroScratch s) = some s' ∧
      r = ⟨s'.r (2 * s'.n), true⟩ := by
  unfold measureDetermined at h
  cases hf : (List.range s.n).foldlM (stepD a) (zeroScratch s) with
  | none =>
    rw [hf] at h
    cases h
  | some st0 =>
    rw [hf] at h
    have hinj := Option.some_injective _ h
    have h1 : st0 = s' := congrArg Prod.fst hinj
    constructor
    · rw [← h1]
    · rw [← h1]
      exact (congrArg Prod.snd hinj).symm

theorem randFinal_facts {s : ChpState} {a p : Nat} {b : Bool} {st : ChpState}
    {log : List (Nat × Nat)} (hp : p < s.n) (ha : a < s.n)
    (hxa : s.x (p + s.n) a = true)
    (h : measureRandomAux s a p b = some (st, log)) :
    st.n = s.n ∧
    (∀ j, st.x (p + s.n) j = false) ∧
    st.r (p + s.n) = b ∧
    (∀ i, i < 2 * s.n → i ≠ p → st.x i a = false) ∧
    (∀ j, st.x p j = s.x (p + s.n) j) := by
  obtain ⟨hst, -⟩ := mra_form h
  subst hst
  have hpn_ne : (p + s.n : Nat) ≠ p := by omega
  have htrig_pn : trig (randCollapse s a p b) a p (p + s.n) = false :=
    trig_at_pn (randCollapse s a p b) a p (p + s.n) rfl
  refine ⟨rfl, fun j => ?_, ?_, fun i hi hip => ?_, fun j => ?_⟩
  · rw [foldOut_x, if_neg (fun hc => Bool.false_ne_true (htrig_pn ▸ hc.2.1)),
      rc_x_pn]
  · rw [foldOut_r, if_neg (fun hc => Bool.false_ne_true (htrig_pn ▸ hc.2)),
      rc_r_pn]
  · by_cases hpn : i = p + s.n
    · subst hpn
      rw [foldOut_x, if_neg (fun hc => Bool.false_ne_true (htrig_pn ▸ hc.2.1)),
        rc_x_pn]
    · have htr : trig (randCollapse s a p b) a p i =
          (randCollapse s a p b).x i a := trig_other hip hpn
      rw [rc_x_other hip hpn] at htr
      by_cases hxia : s.x i a = true
      · rw [foldOut_x, if_pos ⟨List.mem_range.2 hi, htr.trans hxia, ha⟩,
          rc_x_other hip hpn, rc_x_p hp, hxia, hxa]
        rfl
      · have hxf : s.x i a = false := by
          cases hb : s.x i a
          · rfl
          · exact absurd hb hxia
        rw [foldOut_x,
          if_neg (fun hc => hxia (htr.symm.trans hc.2.1)),
          rc_x_other hip hpn]
        exact hxf
  · have htrig_p : trig (randCollapse s a p b) a p p = false := trig_at_p _ _ _
    rw [foldOut_x, if_neg (fun hc => Bool.false_ne_true (htrig_p ▸ hc.2.1)),
      rc_x_p hp]

theorem symp_add_right (nn : Nat) (ux uz vx vz wx wz : Nat → Bool) :
    symp nn ux uz (fun j => vx j ^^ wx j) (fun j => vz j ^^ wz j) =
      symp nn ux uz vx vz + symp nn ux uz wx wz := by
  rw [symp_comm nn ux uz, symp_add_left, symp_comm nn vx vz ux uz,
    symp_comm nn wx wz ux uz]

theorem symp_mask_left (nn : Nat) (c : Bool) (ux uz vx vz : Nat → Bool) :
    symp nn (fun j => c && ux j) (fun j => c && uz j) vx vz =
      bb c * symp nn ux uz vx vz := by
  unfold symp
  rw [Finset.mul_sum]
  apply Finset.sum_congr rfl
  intro j _
  show bb (c && ux j) * bb (vz j) + bb (c && uz j) * bb (vx j) = _
  cases c <;> cases ux j <;> cases uz j <;> cases vx j <;> cases vz j <;>
    decide

theorem symp_mask_right (nn : Nat) (c : Bool) (ux uz vx vz : Nat → Bool) :
    symp nn ux uz (fun j => c && vx j) (fun j => c && vz j) =
      bb c * symp nn ux uz vx vz := by
  rw [symp_comm nn ux uz, symp_mask_left, symp_comm nn vx vz ux uz]

theorem sym_comm (s : ChpState) (i k : Nat) : sym s i k = sym s k i :=
  symp_comm _ _ _ _ _

theorem rowTotal_left_zero {t : ChpState} {i0 k : Nat}
    (hx : ∀ j, j < t.n → t.x i0 j = false)
    (hz : ∀ j, j < t.n → t.z i0 j = false) :
    rowTotal t i0 k = 0 :=
  Finset.sum_eq_zero fun j hj => by
    rw [hx j (Finset.mem_range.1 hj), hz j (Finset.mem_range.1 hj)]
    simp [pauliProductPhase]

theorem rpsVal_total_zero {t : ChpState} {i0 k : Nat}
    (h : rowTotal t i0 k = 0) :
    rpsVal t i0 k = (t.r i0 ^^ t.r k) := by
  unfold rpsVal
  rw [h,
    show decide ((Int.fdiv (0 : Int) 2) % 2 = 1) = false from rfl,
    Bool.xor_false]

theorem Inv_random {s : ChpState} {a p : Nat} {b : Bool} {st : ChpState}
    {log : List (Nat × Nat)} (hInv : Inv s) (hp : p < s.n) (ha : a < s.n)
    (hxa : s.x (p + s.n) a = true)
    (h : measureRandomAux s a p b = some (st, log)) :
    Inv st := by
  obtain ⟨hst, -⟩ := mra_form h
  subst hst
  set s4 := randCollapse s a p b with hs4
  set F := foldOut s4 a p s4 (List.range (2 * s.n)) with hF
  have hFn : F.n = s.n := rfl
  have hrowpX : ∀ j, j < s.n → F.x p j = s.x (p + s.n) j := by
    intro j _
    rw [hF, foldOut_x,
      if_neg (fun hc => Bool.false_ne_true ((trig_at_p s4 a p) ▸ hc.2.1)),
      hs4, rc_x_p hp]
  have hrowpZ : ∀ j, j < s.n → F.z p j = s.z (p + s.n) j := by
    intro j _
    rw [hF, foldOut_z,
      if_neg (fun hc => Bool.false_ne_true ((trig_at_p s4 a p) ▸ hc.2.1)),
      hs4, rc_z_p hp]
  have htpn : trig s4 a p (p + s.n) = false :=
    trig_at_pn s4 a p (p + s.n) (rfl : (p + s.n : Nat) = p + s4.n)
  have hrowpnX : ∀ j, j < s.n → F.x (p + s.n) j = false := by
    intro j _
    rw [hF, foldOut_x, if_neg (fun hc => Bool.false_ne_true (htpn ▸ hc.2.1)),
      hs4, rc_x_pn]
  have hrowpnZ : ∀ j, j < s.n → F.z (p + s.n) j = decide (j = a) := by
    intro j _
    rw [hF, foldOut_z, if_neg (fun hc => Bool.false_ne_true (htpn ▸ hc.2.1)),
      hs4, rc_z_pn]
  have hrowgX : ∀ i', i' < 2 * s.n → i' ≠ p → i' ≠ p + s.n → ∀ j, j < s.n →
      F.x i' j = (s.x i' j ^^ (s.x i' a && s.x (p + s.n) j)) := by
    intro i' hi' hip hipn j hj
    have hipn' : i' ≠ p + s4.n := hipn
    have htr : trig s4 a p i' = s.x i' a := by
      rw [trig_other hip hipn', hs4, rc_x_other hip hipn]
    rw [hF, foldOut_x]
    by_cases hxi : s.x i' a = true
    · rw [if_pos ⟨List.mem_range.2 hi', htr.trans hxi, hj⟩, hs4,
        rc_x_other hip hipn, rc_x_p hp, hxi, Bool.true_and]
    · have hxf : s.x i' a = false := by
        cases hb : s.x i' a
        · rfl
        · exact absurd hb hxi
      rw [if_neg (fun hc => hxi (htr.symm.trans hc.2.1)), hs4,
        rc_x_other hip hipn, hxf, Bool.false_and, Bool.xor_false]
  have hrowgZ : ∀ i', i' < 2 * s.n → i' ≠ p → i' ≠ p + s.n → ∀ j, j < s.n →
      F.z i' j = (s.z i' j ^^ (s.x i' a && s.z (p + s.n) j)) := by
    intro i' hi' hip hipn j hj
    have hipn' : i' ≠ p + s4.n := hipn
    have htr : trig s4 a p i' = s.x i' a := by
      rw [trig_other hip hipn', hs4, rc_x_other hip hipn]
    rw [hF, foldOut_z]
    by_cases hxi : s.x i' a = true
    · rw [if_pos ⟨List.mem_range.2 hi', htr.trans hxi, hj⟩, hs4,
        rc_z_other hip hipn, rc_z_p hp, hxi, Bool.true_and]
    · have hxf : s.x i' a = false := by
        cases hb : s.x i' a
        · rfl
        · exact absurd hb hxi
      rw [if_neg (fun hc => hxi (htr.symm.trans hc.2.1)), hs4,
        rc_z_other hip hipn, hxf, Bool.false_and, Bool.xor_false]
  have h_pp : sym F p p = 0 := symp_self _ _ _
  have h_pnpn : sym F (p + s.n) (p + s.n) = 0 := symp_self _ _ _
  have h_ppn : sym F p (p + s.n) = 1 := by
    unfold sym
    rw [show F.n = s.n from rfl,
      symp_congr (fun j hj => hrowpX j hj) (fun j hj => hrowpZ j hj)
        (fun j hj => hrowpnX j hj) (fun j hj => hrowpnZ j hj),
      symp_Za_right ha]
    show bb (s.x (p + s.n) a) = 1
    rw [hxa]
    rfl
  have h_pg : ∀ k', k' < 2 * s.n → k' ≠ p → k' ≠ p + s.n →
      sym F p k' = 0 := by
    intro k' hk' hkp hkpn
    unfold sym
    rw [show F.n = s.n from rfl,
      symp_congr (fun j hj => hrowpX j hj) (fun j hj => hrowpZ j hj)
        (fun j hj => hrowgX k' hk' hkp hkpn j hj)
        (fun j hj => hrowgZ k' hk' hkp hkpn j hj),
      symp_add_right, symp_mask_right]
    have e1 : symp s.n (fun j => s.x (p + s.n) j) (fun j => s.z (p + s.n) j)
        (fun j => s.x k' j) (fun j => s.z k' j) = sym s (p + s.n) k' := rfl
    have e2 : symp s.n (fun j => s.x (p + s.n) j) (fun j => s.z (p + s.n) j)
        (fun j => s.x (p + s.n) j) (fun j => s.z (p + s.n) j) = 0 :=
      symp_self _ _ _
    rw [e1, e2, hInv (p + s.n) k' (by omega) hk',
      if_neg (by omega : ¬(p + s.n + s.n = k' ∨ k' + s.n = p + s.n))]
    ring
  have h_png : ∀ k', k' < 2 * s.n → k' ≠ p → k' ≠ p + s.n →
      sym F (p + s.n) k' = 0 := by
    intro k' hk' hkp hkpn
    unfold sym
    rw [show F.n = s.n from rfl,
      symp_congr (fun j hj => hrowpnX j hj) (fun j hj => hrowpnZ j hj)
        (fun j hj => hrowgX k' hk' hkp hkpn j hj)
        (fun j hj => hrowgZ k' hk' hkp hkpn j hj),
      symp_add_right, symp_mask_right, symp_Za_left ha, symp_Za_left ha]
    show bb (s.x k' a) + bb (s.x k' a) * bb (s.x (p + s.n) a) = 0
    rw [hxa]
    cases s.x k' a <;> decide
  have h_gg : ∀ i' k', i' < 2 * s.n → k' < 2 * s.n → i' ≠ p →
      i' ≠ p + s.n → k' ≠ p → k' ≠ p + s.n → sym F i' k' = sym s i' k' := by
    intro i' k' hi' hk' h1 h2 h3 h4
    unfold sym
    rw [show F.n = s.n from rfl,
      symp_congr (fun j hj => hrowgX i' hi' h1 h2 j hj)
        (fun j hj => hrowgZ i' hi' h1 h2 j hj)
        (fun j hj => hrowgX k' hk' h3 h4 j hj)
        (fun j hj => hrowgZ k' hk' h3 h4 j hj),
      symp_add_left, symp_add_right, symp_add_right, symp_mask_left,
      symp_mask_left, symp_mask_right, symp_mask_right]
    have e1 : symp s.n (fun j => s.x i' j) (fun j => s.z i' j)
        (fun j => s.x k' j) (fun j => s.z k' j) = sym s i' k' := rfl
    have e2 : symp s.n (fun j => s.x i' j) (fun j => s.z i' j)
        (fun j => s.x (p + s.n) j) (fun j => s.z (p + s.n) j) =
        sym s i' (p + s.n) := rfl
    have e3 : symp s.n (fun j => s.x (p + s.n) j) (fun j => s.z (p + s.n) j)
        (fun j => s.x k' j) (fun j => s.z k' j) = sym s (p + s.n) k' := rfl
    have e4 : symp s.n (fun j => s.x (p + s.n) j) (fun j => s.z (p + s.n) j)
        (fun j => s.x (p + s.n) j) (fun j => s.z (p + s.n) j) = 0 :=
      symp_self _ _ _
    rw [e1, e2, e3, e4, hInv i' (p + s.n) hi' (by omega),
      hInv (p + s.n) k' (by omega) hk',
      if_neg (by omega : ¬(i' + s.n = p + s.n ∨ p + s.n + s.n = i')),
      if_neg (by omega : ¬(p + s.n + s.n = k' ∨ k' + s.n = p + s.n))]
    ring
  intro i k hi hk
  rw [show (2 : Nat) * F.n = 2 * s.n from rfl] at hi hk
  rw [show F.n = s.n from rfl]
  rcases eq_or_ne i p with hip | hip
  · subst hip
    rcases eq_or_ne k i with hkp | hkp
    · subst hkp
      rw [h_pp, if_neg (by omega)]
    · rcases eq_or_ne k (i + s.n) with hkpn | hkpn
      · subst hkpn
        rw [h_ppn, if_pos (Or.inl rfl)]
      · rw [h_pg k hk (fun hc => hkp hc) hkpn, if_neg (by omega)]
  · rcases eq_or_ne i (p + s.n) with hipn | hipn
    · subst hipn
      rcases eq_or_ne k p with hkp | hkp
      · subst hkp
        rw [sym_comm F (k + s.n) k, h_ppn, if_pos (Or.inr rfl)]
      · rcases eq_or_ne k (p + s.n) with hkpn | hkpn
        · subst hkpn
          rw [h_pnpn, if_neg (by omega)]
        · rw [h_png k hk hkp hkpn, if_neg (by omega)]
    · rcases eq_or_ne k p with hkp | hkp
      · subst hkp
        rw [sym_comm F i k, h_pg i hi hip hipn, if_neg (by omega)]
      · rcases eq_or_ne k (p + s.n) with hkpn | hkpn
        · subst hkpn
          rw [sym_comm F i (p + s.n), h_png i hi hip hipn,
            if_neg (by omega)]
        · rw [h_gg i k hi hk hip hipn hkp hkpn, hInv i k hi hk]

theorem rand_evens {s : ChpState} {a p : Nat} (b : Bool) (hInv : Inv s)
    (hp : p < s.n) (ha : a < s.n) :
    ∀ i, i < 2 * s.n → trig (randCollapse s a p b) a p i = true →
      rowTotal (randCollapse s a p b) i p % 2 = 0 := by
  intro i hi htr
  have hip : i ≠ p := by
    intro hc
    rw [hc, trig_at_p] at htr
    cases htr
  have hipn : i ≠ p + s.n := by
    intro hc
    rw [trig_at_pn (randCollapse s a p b) a p i hc] at htr
    cases htr
  apply (even_iff_sym _ i p).2
  have hcg : sym (randCollapse s a p b) i p = sym s i (p + s.n) :=
    sym_congr_rows (randCollapse_n s a p b)
      (fun j _ => rc_x_other hip hipn j) (fun j _ => rc_z_other hip hipn j)
      (fun j _ => rc_x_p hp j) (fun j _ => rc_z_p hp j)
  rw [hcg, hInv i (p + s.n) hi (by omega), if_neg (by omega)]

theorem measureDet_frame {s : ChpState} {a : Nat} {s' : ChpState}
    {r : MeasureResult} (h : measureDetermined s a = some (s', r)) :
    s'.n = s.n ∧ ∀ i, i ≠ 2 * s.n →
      (∀ j, s'.x i j = s.x i j ∧ s'.z i j = s.z i j) ∧ s'.r i = s.r i := by
  obtain ⟨hf, -⟩ := measureDetermined_some h
  have hfr := foldD_frame a (List.range s.n) (zeroScratch s) s' hf
  refine ⟨hfr.1, fun i hi => ?_⟩
  have hi' : i ≠ 2 * (zeroScratch s).n := hi
  have hk := hfr.2 i hi'
  refine ⟨fun j => ?_, ?_⟩
  · rw [(hk.1 j).1, (hk.1 j).2, zeroScratch_x, if_neg hi, zeroScratch_z,
      if_neg hi]
    exact ⟨rfl, rfl⟩
  · rw [hk.2, zeroScratch_r, if_neg hi]

theorem measureDet_isSome {s : ChpState} (hInv : Inv s) (a : Nat) :
    (measureDetermined s a).isSome = true := by
  unfold measureDetermined
  have hzx : ∀ j, j < s.n → (zeroScratch s).x (2 * s.n) j = false := by
    intro j _
    rw [zeroScratch_x, if_pos rfl]
  have hzz : ∀ j, j < s.n → (zeroScratch s).z (2 * s.n) j = false := by
    intro j _
    rw [zeroScratch_z, if_pos rfl]
  have hsome := foldD_some a s hInv (List.range s.n)
    (fun i hi => List.mem_range.1 hi) (zeroScratch s) rfl
    (fun i hi j => by
      rw [zeroScratch_x, if_neg hi, zeroScratch_z, if_neg hi]
      exact ⟨rfl, rfl⟩)
    (fun k hk => by
      rw [symp_congr hzx hzz (fun j _ => rfl) (fun j _ => rfl), symp_zero_left])
  cases hfold : (List.range s.n).foldlM (stepD a) (zeroScratch s) with
  | none =>
    rw [hfold] at hsome
    cases hsome
  | some st0 =>
    rfl

theorem measure_isSome {s : ChpState} (hInv : Inv s) {q : Nat} (hq : q < s.n)
    (b : Bool) : (measure s q b).isSome = true := by
  cases hfind : (List.range s.n).find? (fun p' => s.x (p' + s.n) q) with
  | some p =>
    obtain ⟨hpred, hplt, -⟩ := find_range_some hfind
    rw [measure_eq_random b hfind]
    unfold measureRandom
    rw [if_pos hpred]
    have haux := mra_some (rand_evens b hInv hplt hq)
    cases h : measureRandomAux s q p b with
    | none =>
      rw [h] at haux
      cases haux
    | some stl =>
      rfl
  | none =>
    rw [measure_eq_det b hfind]
    exact measureDet_isSome hInv q

theorem Inv_measure {s : ChpState} {q : Nat} {b : Bool} {s' : ChpState}
    {r : MeasureResult} (hInv : Inv s) (hq : q < s.n)
    (h : measure s q b = some (s', r)) : Inv s' := by
  cases hfind : (List.range s.n).find? (fun p' => s.x (p' + s.n) q) with
  | some p =>
    rw [measure_eq_random b hfind] at h
    obtain ⟨hpred, hplt, -⟩ := find_range_some hfind
    obtain ⟨hxa, log, haux, -⟩ := measureRandom_some h
    exact Inv_random hInv hplt hq hxa haux
  | none =>
    rw [measure_eq_det b hfind] at h
    obtain ⟨hn, hrows⟩ := measureDet_frame h
    intro i k hi hk
    rw [hn] at hi hk ⊢
    have hcg : sym s' i k = sym s i k :=
      sym_congr_rows hn
        (fun j _ => (((hrows i (by omega)).1) j).1)
        (fun j _ => (((hrows i (by omega)).1) j).2)
        (fun j _ => (((hrows k (by omega)).1) j).1)
        (fun j _ => (((hrows k (by omega)).1) j).2)
    rw [hcg]
    exact hInv i k hi hk

theorem inv_of_reachable {s : ChpState} (h : Reachable s) : Inv s := by
  induction h with
  | init nq _ => exact Inv_new nq
  | cnotStep s c t _ hc ht hct ih => exact Inv_cnot ih hc ht hct
  | hadamardStep s q _ _ ih => exact Inv_hadamard ih
  | phaseStep s q _ _ ih => exact Inv_phase ih
  | measureStep s q b s' r _ hq hm ih => exact Inv_measure ih hq hm

/-- C5: `pauli_product_phase` matches the 16-entry table under the
encoding I=00, X=10, Y=11, Z=01 — 0 when an operand is I or the operands
are equal, +1 on (X,Y), (Y,Z), (Z,X), −1 on (X,Z), (Y,X), (Z,Y) — and its
parity is bilinear over GF(2) in each operand under the encoding. -/
theorem chp_c5 :
    (pauliProductPhase false false false false = 0 ∧
      pauliProductPhase false false true false = 0 ∧
      pauliProductPhase false false true true = 0 ∧
      pauliProductPhase false false false true = 0 ∧
      pauliProductPhase true false false false = 0 ∧
      pauliProductPhase true false true false = 0 ∧
      pauliProductPhase true false true true = 1 ∧
      pauliProductPhase true false false true = -1 ∧
      pauliProductPhase true true false false = 0 ∧
      pauliProductPhase true true true false = -1 ∧
      pauliProductPhase true true true true = 0 ∧
      pauliProductPhase true true false true = 1 ∧
      pauliProductPhase false true false false = 0 ∧
      pauliProductPhase false true true false = 1 ∧
      pauliProductPhase false true true true = -1 ∧
      pauliProductPhase false true false true = 0) ∧
    (∀ x1 z1 x1' z1' x2 z2 : Bool,
      (pauliProductPhase (x1 ^^ x1') (z1 ^^ z1') x2 z2) % 2 =
        (pauliProductPhase x1 z1 x2 z2 +
          pauliProductPhase x1' z1' x2 z2) % 2) ∧
    (∀ x1 z1 x2 z2 x2' z2' : Bool,
      (pauliProductPhase x1 z1 (x2 ^^ x2') (z2 ^^ z2')) % 2 =
        (pauliProductPhase x1 z1 x2 z2 +
          pauliProductPhase x1 z1 x2' z2') % 2) := by
  refine ⟨by decide, by decide, by decide⟩

/-- C4: on every reachable state the stabilizer rows pairwise commute
(even Pauli-product phase total), each destabilizer row anticommutes with
its paired stabilizer row and commutes with every other stabilizer row,
and `measure` never trips the commutation assertion of
`_row_product_sign` (it never fails). -/
theorem chp_c4 (s : ChpState) (hs : Reachable s) :
    (∀ i k, s.n ≤ i → i < 2 * s.n → s.n ≤ k → k < 2 * s.n → i ≠ k →
      rowTotal s i k % 2 = 0) ∧
    (∀ i, i < s.n → rowTotal s i (i + s.n) % 2 = 1) ∧
    (∀ i k, i < s.n → s.n ≤ k → k < 2 * s.n → k ≠ i + s.n →
      rowTotal s i k % 2 = 0) ∧
    (∀ q b, q < s.n → (measure s q b).isSome = true) := by
  have hInv := inv_of_reachable hs
  refine ⟨?_, ?_, ?_, ?_⟩
  · intro i k h1 h2 h3 h4 h5
    apply (even_iff_sym s i k).2
    rw [hInv i k h2 h4, if_neg (by omega)]
  · intro i h
    apply (odd_iff_sym s i (i + s.n)).2
    rw [hInv i (i + s.n) (by omega) (by omega), if_pos (Or.inl rfl)]
  · intro i k h1 h2 h3 h4
    apply (even_iff_sym s i k).2
    rw [hInv i k (by omega) h3, if_neg (by omega)]
  · intro q b hq
    exact measure_isSome hInv hq b

/-- C4 witness: on the fresh 1-qubit simulator the destabilizer
anticommutes with its stabilizer and measurement succeeds. -/
theorem chp_c4_witness :
    rowTotal (new 1) 0 1 % 2 = 1 ∧ (measure (new 1) 0 true).isSome = true := by
  have h := chp_c4 (new 1) (Reachable.init 1 (by decide))
  exact ⟨h.2.1 0 (by decide), h.2.2.2 0 true (by decide)⟩

/-- C10: when `measure` takes the determined branch, every bit of every
row other than the scratch row `2n` — X, Z and sign — is unchanged. -/
theorem chp_c10 (s : ChpState) (q : Nat) (b : Bool) (s' : ChpState)
    (r : MeasureResult) (h : measure s q b = some (s', r))
    (hd : r.determined = true) :
    s'.n = s.n ∧ ∀ i, i ≠ 2 * s.n →
      (∀ j, s'.x i j = s.x i j ∧ s'.z i j = s.z i j) ∧ s'.r i = s.r i := by
  cases hfind : (List.range s.n).find? (fun p' => s.x (p' + s.n) q) with
  | some p =>
    rw [measure_eq_random b hfind] at h
    obtain ⟨-, log, -, hr⟩ := measureRandom_some h
    rw [hr] at hd
    cases hd
  | none =>
    rw [measure_eq_det b hfind] at h
    exact measureDet_frame h

/-- C10 witness: the determined measurement on the fresh simulator leaves
row 0 untouched. -/
theorem chp_c10_witness :
    (Option.get (measure (new 1) 0 true) (by decide)).2.determined = true ∧
    (Option.get (measure (new 1) 0 true) (by decide)).1.r 0 = (new 1).r 0 := by
  have hsome : (measure (new 1) 0 true).isSome = true := by decide
  have heq := (Option.some_get hsome).symm
  refine ⟨by decide, ?_⟩
  exact ((chp_c10 (new 1) 0 true _ _ heq (by decide)).2 0 (by decide)).2

/-- C9 counterexample: `cnot` with control = target does not fail — it
returns normally and silently zeroes the control's X column (here turning
`x[0,0]` from 1 to 0) — and `measure` accepts the out-of-range bias 2 and
returns a result. -/
theorem chp_c9_cex :
    cnotOp (new 1) 0 0 = some (cnot (new 1) 0 0) ∧
    ((cnotOp (new 1) 0 0).map (fun st => st.x 0 0)) = some false ∧
    (new 1).x 0 0 = true ∧
    (measureB (new 1) 0 2 (1 / 2 : ℚ)).isSome = true := by
  refine ⟨rfl, by decide, by decide, by decide⟩

/-- C9 amended: an out-of-range qubit index makes each public operation
fail with an index error before mutating anything, but `cnot` with
control = target is not rejected — it silently zeroes that qubit's X and Z
columns — and `measure` performs no range check on the bias. -/
theorem chp_c9_amended (s : ChpState) (c t q : Nat) (bias u : ℚ)
    (hn : 1 ≤ s.n) :
    (cnotOp s c t = none ↔ ¬(c < s.n ∧ t < s.n)) ∧
    (hadamardOp s q = none ↔ ¬ q < s.n) ∧
    (phaseOp s q = none ↔ ¬ q < s.n) ∧
    (measureB s q bias u =
      if q < s.n then measure s q (decide (u < bias)) else none) ∧
    (c < s.n → cnotOp s c c = some (cnot s c c)) ∧
    (∀ i, (cnot s c c).x i c = false ∧ (cnot s c c).z i c = false) := by
  refine ⟨?_, ?_, ?_, rfl, ?_, ?_⟩
  · unfold cnotOp
    by_cases hc : c < s.n ∧ t < s.n
    · rw [if_pos hc]
      simp [hc]
    · rw [if_neg hc]
      simp [hc]
  · unfold hadamardOp
    by_cases hq : q < s.n
    · rw [if_pos hq]
      simp [hq]
    · rw [if_neg hq]
      simp [hq]
  · unfold phaseOp
    by_cases hq : q < s.n
    · rw [if_pos hq]
      simp [hq]
    · rw [if_neg hq]
      simp [hq]
  · intro hc
    unfold cnotOp
    rw [if_pos ⟨hc, hc⟩]
  · intro i
    rw [cnot_x, if_pos rfl, cnot_z, if_pos rfl]
    exact ⟨Bool.xor_self _, Bool.xor_self _⟩

/-- C9 amended witness. -/
theorem chp_c9_amended_witness :
    1 ≤ (new 1).n ∧ (cnotOp (new 1) 1 0 = none ↔
      ¬((1 : Nat) < (new 1).n ∧ (0 : Nat) < (new 1).n)) :=
  ⟨by decide, (chp_c9_amended (new 1) 1 0 0 2 (1 / 2 : ℚ) (by decide)).1⟩

/-- C1: `measure` takes the random branch — returning
`determined = false` — exactly when some stabilizer row `p ∈ [n, 2n)` has
`x[p, q] = 1`; the smallest such row is the one used (the branch runs
`_measure_random` with that row), and otherwise the determined branch runs
and any returned result has `determined = true`. -/
theorem chp_c1 (s : ChpState) (q : Nat) (b : Bool) :
    (∀ s' r, measure s q b = some (s', r) →
      (r.determined = false ↔ ∃ p, s.n ≤ p ∧ p < 2 * s.n ∧ s.x p q = true)) ∧
    (∀ p0, s.n ≤ p0 → p0 < 2 * s.n → s.x p0 q = true →
      (∀ p', s.n ≤ p' → p' < p0 → s.x p' q = false) →
      measure s q b = measureRandom s q (p0 - s.n) b) ∧
    ((∀ p, s.n ≤ p → p < 2 * s.n → s.x p q = false) →
      measure s q b = measureDetermined s q) := by
  refine ⟨?_, ?_, ?_⟩
  · intro s' r h
    cases hfind : (List.range s.n).find? (fun p' => s.x (p' + s.n) q) with
    | some p =>
      obtain ⟨hpred, hplt, -⟩ := find_range_some hfind
      rw [measure_eq_random b hfind] at h
      obtain ⟨-, log, -, hr⟩ := measureRandom_some h
      rw [hr]
      exact ⟨fun _ => ⟨p + s.n, by omega, by omega, hpred⟩, fun _ => rfl⟩
    | none =>
      rw [measure_eq_det b hfind] at h
      obtain ⟨-, hr⟩ := measureDetermined_some h
      rw [hr]
      constructor
      · intro hc
        cases hc
      · rintro ⟨p, hp1, hp2, hp3⟩
        have hfalse := find_range_none hfind (p - s.n) (by omega)
        rw [show p - s.n + s.n = p by omega] at hfalse
        rw [hp3] at hfalse
        cases hfalse
  · intro p0 h1 h2 h3 hleast
    have hfind : (List.range s.n).find? (fun p' => s.x (p' + s.n) q) =
        some (p0 - s.n) := by
      apply find_range_of_least (by omega)
      · show s.x (p0 - s.n + s.n) q = true
        rw [show p0 - s.n + s.n = p0 by omega]
        exact h3
      · intro p' hp'
        show s.x (p' + s.n) q = false
        exact hleast (p' + s.n) (by omega) (by omega)
    exact measure_eq_random b hfind
  · intro hoff
    have hfind : (List.range s.n).find? (fun p' => s.x (p' + s.n) q) =
        none := by
      rw [List.find?_eq_none]
      intro p' hp'
      have := hoff (p' + s.n) (by omega)
        (by have := List.mem_range.1 hp'; omega)
      intro hc
      rw [this] at hc
      cases hc
    exact measure_eq_det b hfind

/-- C1 witness: on H|0⟩ the single stabilizer row has `x = 1` on the
measured qubit, and `measure` runs `_measure_random` with it. -/
theorem chp_c1_witness :
    (hadamard (new 1) 0).x 1 0 = true ∧
    measure (hadamard (new 1) 0) 0 true =
      measureRandom (hadamard (new 1) 0) 0 (1 - 1) true := by
  refine ⟨by decide, ?_⟩
  exact (chp_c1 (hadamard (new 1) 0) 0 true).2.1 1 (by decide) (by decide)
    (by decide) (fun p' h1 h2 => by
      rw [show (hadamard (new 1) 0).n = 1 from rfl] at h1
      omega)

/-- C7: applying `hadamard(q)` twice, `phase(q)` four times, or
`cnot(c,t)` twice with `c ≠ t` leaves every X, Z and sign bit of every row
unchanged. -/
theorem chp_c7 (s : ChpState) (q c t : Nat) (hq : q < s.n) (hc : c < s.n)
    (ht : t < s.n) (hct : c ≠ t) :
    (∀ i j, (hadamard (hadamard s q) q).x i j = s.x i j ∧
      (hadamard (hadamard s q) q).z i j = s.z i j) ∧
    (∀ i, (hadamard (hadamard s q) q).r i = s.r i) ∧
    (∀ i j, (phase (phase (phase (phase s q) q) q) q).x i j = s.x i j ∧
      (phase (phase (phase (phase s q) q) q) q).z i j = s.z i j) ∧
    (∀ i, (phase (phase (phase (phase s q) q) q) q).r i = s.r i) ∧
    (∀ i j, (cnot (cnot s c t) c t).x i j = s.x i j ∧
      (cnot (cnot s c t) c t).z i j = s.z i j) ∧
    (∀ i, (cnot (cnot s c t) c t).r i = s.r i) := by
  have hct' : t ≠ c := fun h => hct h.symm
  refine ⟨fun i j => ⟨?_, ?_⟩, fun i => ?_, fun i j => ⟨?_, ?_⟩, fun i => ?_,
    fun i j => ⟨?_, ?_⟩, fun i => ?_⟩
  · rw [hadamard_x, hadamard_z, hadamard_x]
    by_cases h : j = q <;> simp [h]
  · rw [hadamard_z, hadamard_x, hadamard_z]
    by_cases h : j = q <;> simp [h]
  · rw [hadamard_r, hadamard_r, hadamard_x, hadamard_z]
    simp only [eq_self_iff_true, if_true]
    cases s.r i <;> cases s.x i q <;> cases s.z i q <;> decide
  · simp only [phase_x]
  · by_cases h : j = q
    · subst h
      simp only [phase_z, phase_x, eq_self_iff_true, if_true]
      cases s.x i j <;> cases s.z i j <;> decide
    · simp [phase_z, phase_x, h]
  · simp only [phase_r, phase_x, phase_z, eq_self_iff_true, if_true]
    cases s.r i <;> cases s.x i q <;> cases s.z i q <;> decide
  · by_cases h : j = t
    · subst h
      simp only [cnot_x, eq_self_iff_true, if_true]
      rw [if_neg hct]
      cases s.x i j <;> cases s.x i c <;> decide
    · simp [cnot_x, h]
  · by_cases h : j = c
    · subst h
      simp only [cnot_z, eq_self_iff_true, if_true]
      rw [if_neg hct']
      cases s.z i j <;> cases s.z i t <;> decide
    · simp [cnot_z, h]
  · simp only [cnot_r, cnot_x, cnot_z, eq_self_iff_true, if_true]
    rw [if_neg hct, if_neg hct']
    cases s.r i <;> cases s.x i c <;> cases s.x i t <;> cases s.z i c <;>
      cases s.z i t <;> decide

/-- C7 witness at the fresh 2-qubit simulator. -/
theorem chp_c7_witness :
    (0 : Nat) < (new 2).n ∧ (1 : Nat) < (new 2).n ∧
    (hadamard (hadamard (new 2) 0) 0).x 0 0 = (new 2).x 0 0 ∧
    (cnot (cnot (new 2) 0 1) 0 1).r 2 = (new 2).r 2 := by
  have h := chp_c7 (new 2) 0 0 1 (by decide) (by decide) (by decide)
    (by decide)
  exact ⟨by decide, by decide, (h.1 0 0).1, h.2.2.2.2.2 2⟩

/-- C6 counterexample: `np.eye(2n+1)` sets every diagonal bit including
`table[2n][2n]`, so at construction the scratch row's sign bit is 1, not
0; and after a determined measurement the scratch row holds a nonzero
residue (`z[2n, 0] = 1` here), so it is not zero in every observable
state. -/
theorem chp_c6_cex :
    (new 1).r 2 = true ∧
    ((measure (new 1) 0 true).map (fun sr => sr.1.z 2 0)) = some true := by
  refine ⟨by decide, by decide⟩

/-- C6 amended: `new(n)` zeroes everything except the full diagonal
`table[i][i] = 1` for `i ∈ [0, 2n]` — so the scratch row's X and Z bits
are 0 but its sign bit is 1 — and the scratch row is zeroed at the start
of each determined-measurement body, so its stale content never affects a
determined measurement. -/
theorem chp_c6_amended (nq : Nat) (h1 : 1 ≤ nq) :
    (∀ i j, i ≤ 2 * nq → j < nq →
      ((new nq).x i j = decide (i = j) ∧
        (new nq).z i j = decide (i = j + nq))) ∧
    (∀ i, i ≤ 2 * nq → (new nq).r i = decide (i = 2 * nq)) ∧
    (∀ j, j < nq →
      (new nq).x (2 * nq) j = false ∧ (new nq).z (2 * nq) j = false) ∧
    (new nq).r (2 * nq) = true ∧
    (∀ s t : ChpState, ∀ a, s.n = t.n →
      (∀ i, i ≠ 2 * s.n →
        (∀ j, s.x i j = t.x i j ∧ s.z i j = t.z i j) ∧ s.r i = t.r i) →
      measureDetermined s a = measureDetermined t a) := by
  refine ⟨fun i j _ _ => ⟨rfl, rfl⟩, fun i _ => rfl, fun j hj => ?_, ?_, ?_⟩
  · rw [new_x, new_z]
    constructor
    · simp only [decide_eq_false_iff_not]
      omega
    · simp only [decide_eq_false_iff_not]
      omega
  · rw [new_r]
    simp
  · intro s t a hn hrows
    have hz : zeroScratch s = zeroScratch t := by
      refine stateExt hn (fun i j => ?_) (fun i j => ?_) (fun i => ?_)
      · by_cases hi : i = 2 * s.n
        · rw [zeroScratch_x, if_pos hi, zeroScratch_x,
            if_pos (by rw [← hn]; exact hi)]
        · rw [zeroScratch_x, if_neg hi, zeroScratch_x,
            if_neg (by rw [← hn]; exact hi), ((hrows i hi).1 j).1]
      · by_cases hi : i = 2 * s.n
        · rw [zeroScratch_z, if_pos hi, zeroScratch_z,
            if_pos (by rw [← hn]; exact hi)]
        · rw [zeroScratch_z, if_neg hi, zeroScratch_z,
            if_neg (by rw [← hn]; exact hi), ((hrows i hi).1 j).2]
      · by_cases hi : i = 2 * s.n
        · rw [zeroScratch_r, if_pos hi, zeroScratch_r,
            if_pos (by rw [← hn]; exact hi)]
        · rw [zeroScratch_r, if_neg hi, zeroScratch_r,
            if_neg (by rw [← hn]; exact hi), (hrows i hi).2]
    unfold measureDetermined
    rw [hz, hn]

/-- C6 amended witness: a state differing from the fresh simulator only
in the scratch row yields the same determined measurement. -/
theorem chp_c6_amended_witness :
    measureDetermined (new 1) 0 = measureDetermined (zeroScratch (new 1)) 0 := by
  apply (chp_c6_amended 1 (by decide)).2.2.2.2 (new 1) (zeroScratch (new 1))
    0 rfl
  intro i hi
  refine ⟨fun j => ⟨?_, ?_⟩, ?_⟩
  · rw [zeroScratch_x, if_neg hi]
  · rw [zeroScratch_z, if_neg hi]
  · rw [zeroScratch_r, if_neg hi]

/-- C3 counterexample: measuring qubit 0 of H|0⟩ takes the random branch
with destabilizer index `p = 0` (stabilizer row 1); after the collapse the
destabilizer copy at row `p − n = 0` has `x[0, 0] = 1`, yet the loop
performs no `row_mult` at all — in particular not `row_mult(0, 1)` —
because the source excludes `i = p`. -/
theorem chp_c3_cex :
    ((measureRandomAux (hadamard (new 1) 0) 0 0 true).map (fun x => x.2))
        = some [] ∧
    (randCollapse (hadamard (new 1) 0) 0 0 true).x 0 0 = true ∧
    ((0, 1) : Nat × Nat) ∉ ([] : List (Nat × Nat)) := by
  refine ⟨by decide, by decide, by decide⟩

/-- C3 amended: the random-branch loop invokes `row_mult(i, p − n)` —
multiplying by the destabilizer copy of the old stabilizer, not by the new
stabilizer row — exactly for the rows `i < 2n` with `x[i, a] = 1` other
than the destabilizer copy `p − n` and the new stabilizer `p` themselves;
the destabilizer copy is excluded, not processed.  (Here `p` is the
source's destabilizer index, the claim's `p − n`.) -/
theorem chp_c3_amended (s : ChpState) (a p : Nat) (b : Bool)
    (lg : List (Nat × Nat))
    (h : (measureRandomAux s a p b).map (fun x => x.2) = some lg) :
    lg = ((List.range (2 * s.n)).filter
        (fun i => (randCollapse s a p b).x i a && !decide (i = p) &&
          !decide (i = p + s.n))).map (fun i => (i, p)) ∧
    (∀ k, (p, k) ∉ lg) ∧
    (∀ i k, (i, k) ∈ lg → k = p) := by
  cases haux : measureRandomAux s a p b with
  | none =>
    rw [haux] at h
    cases h
  | some stl =>
    rw [haux] at h
    obtain ⟨st0, log0⟩ := stl
    have hlg : log0 = lg := Option.some_injective _ h
    subst hlg
    obtain ⟨-, hlog⟩ := mra_form haux
    refine ⟨hlog, ?_, ?_⟩
    · intro k hk
      rw [hlog] at hk
      obtain ⟨i0, hi0, heq⟩ := List.mem_map.1 hk
      have hip : i0 = p := congrArg Prod.fst heq
      have htr := List.of_mem_filter hi0
      rw [hip, trig_at_p] at htr
      cases htr
    · intro i k hik
      rw [hlog] at hik
      obtain ⟨i0, hi0, heq⟩ := List.mem_map.1 hik
      exact (congrArg Prod.snd heq).symm

/-- C3 amended witness: on the kickback-vs-stabilizer state the loop
multiplies exactly row 5 by the destabilizer copy at row 0, and no pair
with first component `p = 0` is logged. -/
theorem chp_c3_amended_witness :
    ((measureRandomAux kvsState 0 0 false).map (fun x => x.2)) =
      some [(5, 0)] ∧
    (∀ k, ((0 : Nat), k) ∉ [((5 : Nat), (0 : Nat))]) := by
  have h := chp_c3_amended kvsState 0 0 false [(5, 0)] (by decide)
  exact ⟨by decide, h.2.1⟩

/-- C2: whatever `measure(q, b1)` returns, an immediately repeated
`measure(q, b2)` succeeds and returns the same value with
`determined = true`. -/
theorem chp_c2 (s : ChpState) (q : Nat) (b1 b2 : Bool) (hq : q < s.n)
    (s1 : ChpState) (r1 : MeasureResult)
    (h1 : measure s q b1 = some (s1, r1)) :
    ∃ s2, measure s1 q b2 = some (s2, MeasureResult.mk r1.value true) := by
  cases hfind : (List.range s.n).find? (fun p' => s.x (p' + s.n) q) with
  | some p =>
    obtain ⟨hpred, hplt, -⟩ := find_range_some hfind
    rw [measure_eq_random b1 hfind] at h1
    obtain ⟨hxa, log, haux, hr1⟩ := measureRandom_some h1
    obtain ⟨hn1, hxpn, hrpn, hoff, hxp⟩ := randFinal_facts hplt hq hxa haux
    have hplt1 : p < s1.n := by
      rw [hn1]
      exact hplt
    have hfind2 : (List.range s1.n).find? (fun p' => s1.x (p' + s1.n) q) =
        none := by
      rw [List.find?_eq_none]
      intro p' hp'
      have hp'' : p' < s.n := by
        have := List.mem_range.1 hp'
        rw [hn1] at this
        exact this
      intro hc
      rw [hn1] at hc
      rw [hoff (p' + s.n) (by omega) (by omega)] at hc
      cases hc
    rw [measure_eq_det b2 hfind2]
    unfold measureDetermined
    have hzc : (2 : Nat) * (zeroScratch s1).n = 2 * s1.n := by
      rw [zeroScratch_n]
    have htot0 : rowTotal (zeroScratch s1) (2 * (zeroScratch s1).n)
        (p + (zeroScratch s1).n) = 0 :=
      rowTotal_left_zero (fun j _ => by rw [zeroScratch_x, if_pos hzc])
        (fun j _ => by rw [zeroScratch_z, if_pos hzc])
    have hfold := foldD_singleton q p (List.range s1.n) (List.nodup_range _)
      (zeroScratch s1)
      (fun i hi => by
        have := List.mem_range.1 hi
        exact this)
      (fun i hi hip => by
        have hilt : i < s.n := by
          have := List.mem_range.1 hi
          rw [hn1] at this
          exact this
        rw [zeroScratch_x, if_neg (by rw [hn1]; omega : i ≠ 2 * s1.n)]
        exact hoff i (by omega) hip)
      (List.mem_range.2 hplt1)
      (by
        rw [zeroScratch_x, if_neg (by rw [hn1]; omega : p ≠ 2 * s1.n)]
        rw [hxp q]
        exact hpred)
      (by
        rw [htot0]
        rfl)
    rw [hfold]
    set RM := rowMultVal (zeroScratch s1) (2 * (zeroScratch s1).n)
      (p + (zeroScratch s1).n) with hRM
    have hval : RM.r (2 * RM.n) = r1.value := by
      rw [hRM]
      rw [show (2 : Nat) * (rowMultVal (zeroScratch s1)
        (2 * (zeroScratch s1).n) (p + (zeroScratch s1).n)).n =
        2 * (zeroScratch s1).n from rfl]
      rw [rowMultVal_r, if_pos rfl, rpsVal_total_zero htot0]
      rw [zeroScratch_r, if_pos hzc, Bool.false_xor]
      rw [show p + (zeroScratch s1).n = p + s1.n from rfl]
      rw [zeroScratch_r, if_neg (by omega : p + s1.n ≠ 2 * s1.n)]
      rw [hr1]
    refine ⟨RM, ?_⟩
    show some (RM, (⟨RM.r (2 * RM.n), true⟩ : MeasureResult)) =
      some (RM, ⟨r1.value, true⟩)
    rw [hval]
  | none =>
    rw [measure_eq_det b1 hfind] at h1
    obtain ⟨hn1, hrows⟩ := measureDet_frame h1
    have hall := find_range_none hfind
    have hfind2 : (List.range s1.n).find? (fun p' => s1.x (p' + s1.n) q) =
        none := by
      rw [List.find?_eq_none]
      intro p' hp'
      have hp'' : p' < s.n := by
        have := List.mem_range.1 hp'
        rw [hn1] at this
        exact this
      intro hc
      rw [hn1] at hc
      rw [((hrows (p' + s.n) (by omega)).1 q).1] at hc
      rw [hall p' hp''] at hc
      cases hc
    rw [measure_eq_det b2 hfind2]
    have hz : zeroScratch s1 = zeroScratch s := by
      refine stateExt hn1 (fun i j => ?_) (fun i j => ?_) (fun i => ?_)
      · by_cases hi : i = 2 * s.n
        · rw [zeroScratch_x, if_pos (by rw [hn1]; exact hi), zeroScratch_x,
            if_pos hi]
        · rw [zeroScratch_x, if_neg (by rw [hn1]; exact hi), zeroScratch_x,
            if_neg hi, ((hrows i hi).1 j).1]
      · by_cases hi : i = 2 * s.n
        · rw [zeroScratch_z, if_pos (by rw [hn1]; exact hi), zeroScratch_z,
            if_pos hi]
        · rw [zeroScratch_z, if_neg (by rw [hn1]; exact hi), zeroScratch_z,
            if_neg hi, ((hrows i hi).1 j).2]
      · by_cases hi : i = 2 * s.n
        · rw [zeroScratch_r, if_pos (by rw [hn1]; exact hi), zeroScratch_r,
            if_pos hi]
        · rw [zeroScratch_r, if_neg (by rw [hn1]; exact hi), zeroScratch_r,
            if_neg hi, (hrows i hi).2]
    unfold measureDetermined
    rw [hz, hn1]
    obtain ⟨hf, hr1⟩ := measureDetermined_some h1
    rw [hf]
    refine ⟨s1, ?_⟩
    show some (s1, (⟨s1.r (2 * s1.n), true⟩ : MeasureResult)) =
      some (s1, ⟨r1.value, true⟩)
    rw [hr1]

/-- C2 witness: measuring H|0⟩'s qubit twice, the second measurement
repeats the value as determined. -/
theorem chp_c2_witness :
    ∃ s2, measure (Option.get (measure (hadamard (new 1) 0) 0 true)
        (by decide)).1 0 false =
      some (s2, MeasureResult.mk (Option.get (measure (hadamard (new 1) 0)
        0 true) (by decide)).2.value true) := by
  have hsome : (measure (hadamard (new 1) 0) 0 true).isSome = true := by
    decide
  exact chp_c2 (hadamard (new 1) 0) 0 true false (by decide) _ _
    (Option.some_get hsome).symm

theorem strFold (f : Nat → Char) :
    ∀ (L : List Nat) (cs : List Char),
    L.foldl (fun acc c => acc ++ (f c).toString) (String.mk cs) =
      String.mk (cs ++ L.map f) := by
  intro L
  induction L with
  | nil =>
    intro cs
    simp
  | cons c L ih =>
    intro cs
    rw [List.foldl_cons,
      show String.mk cs ++ (f c).toString = String.mk (cs ++ [f c]) from rfl,
      ih, List.map_cons]
    simp

theorem rowStr_eq (s : ChpState) (row : Nat) :
    rowStr s row = String.mk ((if s.r row then '-' else '+') ::
      (List.range s.n).map (fun col => cell s row col)) := by
  unfold rowStr
  rw [show (if s.r row then "-" else "+") =
    String.mk [if s.r row then '-' else '+'] by cases s.r row <;> rfl]
  rw [strFold (fun col => cell s row col) (List.range s.n)]
  rfl

/-- C8 counterexample: on the fresh 1-qubit simulator the source prints
`+X` (row 0) before the separator and `+Z` (row 1) after it, while the
claimed rendering puts rows `[n, 2n)` first. -/
theorem chp_c8_cex : pyStr (new 1) ≠ specRenderC8 (new 1) := by decide

/-- C8 amended: `__str__` prints rows `[0, n)` first, then a separator of
`n+1` dashes, then rows `[n, 2n)`; each printed row is a `+`/`-` sign
character from the row's sign bit followed by `n` cells `.`, `X`, `Z`, `Y`
per the (x, z) encoding, joined by newlines with no trailing newline. -/
theorem chp_c8_amended (s : ChpState) : pyStr s = specRenderC8Fixed s := by
  unfold pyStr specRenderC8Fixed
  have h1 : ∀ L : List Nat,
      L.map (fun row => rowStr s row) =
      L.map (fun row => String.mk ((if s.r row then '-' else '+') ::
        (List.range s.n).map (fun col =>
          if s.x row col then (if s.z row col then 'Y' else 'X')
          else (if s.z row col then 'Z' else '.')))) := by
    intro L
    induction L with
    | nil => rfl
    | cons row L ihL =>
      rw [List.map_cons, List.map_cons, ihL]
      have hr : rowStr s row = String.mk ((if s.r row then '-' else '+') ::
          (List.range s.n).map (fun col =>
            if s.x row col then (if s.z row col then 'Y' else 'X')
            else (if s.z row col then 'Z' else '.'))) := rowStr_eq s row
      rw [hr]
  rw [h1 (List.range s.n), h1 (List.range' s.n s.n)]

end Chp

